import Mathlib

/- Shallow embedding of the semver library (src/semver.go).
   Go strings are modelled as List Char, uint64 as Nat (values kept below 2^64 by the
   parsing functions, with explicit wrap-around where the code can overflow), int64 as
   Int, and fallible Go functions returning (T, error) as Option T (none = error). -/

set_option maxRecDepth 8000

namespace Semver

/-- Character list of a Lean string literal (Go strings are byte strings; every string
this library validates is ASCII, so List Char is a faithful model). -/
def chars (s : String) : List Char := s.data

/-- Constant numbers = "0123456789" (src/semver.go line 12). -/
def numbers : List Char := chars "0123456789"

/-- Constant alphas = lowercase ++ uppercase ++ hyphen (src/semver.go line 13). -/
def alphas : List Char := chars "abcdefghijklmnopqrstuvwxyzABCDEFGHIJKLMNOPQRSTUVWXYZ-"

/-- Constant alphanum = alphas + numbers (src/semver.go line 14). -/
def alphanum : List Char := alphas ++ numbers

/-- containsOnly (src/semver.go lines 523-527): every rune of s is in set. -/
def containsOnly (s set : List Char) : Bool := s.all (fun c => set.contains c)

/-- hasLeadingZeroes (src/semver.go lines 529-531). -/
def hasLeadingZeroes (s : List Char) : Bool :=
  decide (s.length > 1) && (s.head? == some '0')

/-- PRVersion (src/semver.go lines 449-453). -/
structure PRVersion where
  VersionStr : List Char
  VersionNum : Nat
  IsNum : Bool
deriving DecidableEq

/-- Version (src/semver.go lines 42-49). Revision -1 encodes an absent revision. -/
structure Version where
  Major : Nat
  Minor : Nat
  Patch : Nat
  Revision : Int
  Pre : List PRVersion
  Build : List (List Char)
deriving DecidableEq

/-- Go string less-than: lexicographic byte order (ASCII here, so codepoint order,
which is the order of Char's LinearOrder). -/
def strLt : List Char → List Char → Bool
  | [], [] => false
  | [], _ :: _ => true
  | _ :: _, [] => false
  | a :: as, b :: bs =>
    if a < b then true
    else if b < a then false
    else strLt as bs

/-- PRVersion.Compare (src/semver.go lines 491-513): the if-chain on the two IsNum
flags written as a match on them (numeric-and-not, not-and-numeric, both numeric,
both alphanumeric). Go's v.VersionStr > o.VersionStr is strLt o.VersionStr
v.VersionStr. -/
def PRVersion.Compare (v o : PRVersion) : Int :=
  match v.IsNum, o.IsNum with
  | true, false => -1
  | false, true => 1
  | true, true =>
    if v.VersionNum = o.VersionNum then 0
    else if v.VersionNum > o.VersionNum then 1
    else -1
  | false, false =>
    if v.VersionStr = o.VersionStr then 0
    else if strLt o.VersionStr v.VersionStr then 1
    else -1

/-- The element-wise prerelease loop of Version.Compare together with the
trailing length comparison (src/semver.go lines 191-209). -/
def comparePreLists : List PRVersion → List PRVersion → Int
  | [], [] => 0
  | [], _ :: _ => -1
  | _ :: _, [] => 1
  | a :: as, b :: bs =>
    let comp := a.Compare b
    if comp = 0 then comparePreLists as bs
    else if comp = 1 then 1
    else -1

/-- The prerelease stage of Version.Compare: quick emptiness checks (lines 182-189)
followed by the element-wise loop (lines 191-209). -/
def preCompare (x y : List PRVersion) : Int :=
  if x.length = 0 ∧ y.length = 0 then 0
  else if x.length = 0 ∧ y.length > 0 then 1
  else if x.length > 0 ∧ y.length = 0 then -1
  else comparePreLists x y

/-- Version.Compare (src/semver.go lines 152-211). -/
def Version.Compare (v o : Version) : Int :=
  if v.Major ≠ o.Major then if v.Major > o.Major then 1 else -1
  else if v.Minor ≠ o.Minor then if v.Minor > o.Minor then 1 else -1
  else if v.Patch ≠ o.Patch then if v.Patch > o.Patch then 1 else -1
  else if v.Revision ≠ o.Revision ∧ v.Revision ≠ -1 ∧ o.Revision ≠ -1 then
    if v.Revision > o.Revision then 1 else -1
  else preCompare v.Pre o.Pre

/-- Version.Equals (src/semver.go lines 104-106). -/
def Version.Equals (v o : Version) : Bool := decide (v.Compare o = 0)

/-- Version.IncrementMinor (src/semver.go lines 231-238). The Go error result is
always nil, so the model returns the updated Version directly. Minor is a uint64,
so the ++ wraps at 2^64. -/
def Version.IncrementMinor (v : Version) : Version :=
  { v with
    Minor := (v.Minor + 1) % 2 ^ 64
    Patch := 0
    Revision := if 0 ≤ v.Revision then 0 else v.Revision }

/-- Error outcomes of Version.Validate (src/semver.go lines 252-276). -/
inductive ValidateErr where
  | preEmpty
  | preChar
  | buildEmpty
  | buildChar
deriving DecidableEq

/-- The prerelease loop of Version.Validate (src/semver.go lines 255-264). -/
def validatePre : List PRVersion → Option ValidateErr
  | [] => none
  | p :: rest =>
    if p.IsNum = false then
      if p.VersionStr.length = 0 then some .preEmpty
      else if containsOnly p.VersionStr alphanum = false then some .preChar
      else validatePre rest
    else validatePre rest

/-- The build loop of Version.Validate (src/semver.go lines 266-273). -/
def validateBuild : List (List Char) → Option ValidateErr
  | [] => none
  | b :: rest =>
    if b.length = 0 then some .buildEmpty
    else if containsOnly b alphanum = false then some .buildChar
    else validateBuild rest

/-- Version.Validate (src/semver.go lines 252-276): none means no error. -/
def Version.Validate (v : Version) : Option ValidateErr :=
  match validatePre v.Pre with
  | some e => some e
  | none => validateBuild v.Build

/-- Numeric value of an ASCII digit character. -/
def digitVal (c : Char) : Nat := c.toNat - 48

/-- Decimal value of a digit string (the accumulation strconv performs). -/
def digitsToNat (s : List Char) : Nat := s.foldl (fun a c => a * 10 + digitVal c) 0

/-- strconv.ParseUint(s, 10, 64): value of a decimal string, error on empty input,
a non-digit character, or overflow past 2^64-1. -/
def parseUint64 (s : List Char) : Option Nat :=
  if s.isEmpty then none
  else if containsOnly s numbers then
    if digitsToNat s < 2 ^ 64 then some (digitsToNat s) else none
  else none

/-- strconv.ParseInt(s, 10, 64) on an unsigned digit string (the only shape the
revision capture can take): error on empty input, a non-digit, or a value past
2^63-1. -/
def parseInt64Digits (s : List Char) : Option Int :=
  if s.isEmpty then none
  else if containsOnly s numbers then
    if digitsToNat s ≤ 2 ^ 63 - 1 then some (Int.ofNat (digitsToNat s)) else none
  else none

/-- NewPRVersion (src/semver.go lines 456-480). -/
def NewPRVersion (s : List Char) : Option PRVersion :=
  if s.length = 0 then none
  else if containsOnly s numbers then
    if hasLeadingZeroes s then none
    else
      match parseUint64 s with
      | none => none
      | some num => some { VersionStr := [], VersionNum := num, IsNum := true }
  else if containsOnly s alphanum then
    some { VersionStr := s, VersionNum := 0, IsNum := false }
  else none

/-- Split a character list at the first occurrence of c: the part before it and,
when c occurs, the part after it. -/
def splitAtFirst (c : Char) : List Char → List Char × Option (List Char)
  | [] => ([], none)
  | x :: xs =>
    if x = c then ([], some xs)
    else
      let r := splitAtFirst c xs
      (x :: r.1, r.2)

/-- strings.Split(s, ".") as a structural recursion; the empty string yields one
empty segment, like Go. -/
def splitOnDot : List Char → List (List Char)
  | [] => [[]]
  | c :: rest =>
    match splitOnDot rest with
    | [] => [[]]
    | g :: gs => if c = '.' then [] :: g :: gs else (c :: g) :: gs

/-- Join segments with dots (the rendering loop shape used by Version.String). -/
def dotJoin : List (List Char) → List Char
  | [] => []
  | [s] => s
  | s :: rest => s ++ '.' :: dotJoin rest

/-- Core numeric field of the strict grammar: 0 or a digit string without a
leading zero (kongVersionRegexFormat, src/semver.go lines 15-18). -/
def isNumField (s : List Char) : Bool :=
  !s.isEmpty && containsOnly s numbers && !hasLeadingZeroes s

/-- Second alternative of a strict prerelease segment: digits, then a letter or
hyphen, then any alphanumeric/hyphen tail (src/semver.go line 19). -/
def isPreSegAlt (s : List Char) : Bool :=
  match s.dropWhile (fun c => numbers.contains c) with
  | [] => false
  | c :: rest => alphas.contains c && containsOnly rest alphanum

/-- One dot-separated prerelease segment of the strict grammar
(src/semver.go line 19). -/
def isPreSegment (s : List Char) : Bool :=
  (!s.isEmpty && containsOnly s numbers && !hasLeadingZeroes s) || isPreSegAlt s

/-- One dot-separated build segment of the strict grammar (src/semver.go line 20). -/
def isBuildSegment (s : List Char) : Bool :=
  !s.isEmpty && containsOnly s alphanum

/-- The six named captures of the strict regex; none encodes an absent optional
group, mirroring the empty submatch Go reports. -/
structure StrictFields where
  major : List Char
  minor : List Char
  patch : List Char
  revision : Option (List Char)
  prerelease : Option (List Char)
  buildmetadata : Option (List Char)
deriving DecidableEq

/-- Matching of kongVersionRegexFormat (src/semver.go lines 15-20). The core
(major.minor.patch and optional .revision) contains neither '-' nor '+', and the
prerelease part contains no '+', so the first '+' of the input starts the build
metadata and the first '-' before it starts the prerelease. -/
def matchStrict (s : List Char) : Option StrictFields :=
  let p1 := splitAtFirst '+' s
  let p2 := splitAtFirst '-' p1.1
  let preOk : Bool :=
    match p2.2 with
    | none => true
    | some p => (splitOnDot p).all isPreSegment
  let bldOk : Bool :=
    match p1.2 with
    | none => true
    | some b => (splitOnDot b).all isBuildSegment
  if preOk && bldOk then
    match splitOnDot p2.1 with
    | [ma, mi, pa] =>
      if isNumField ma && isNumField mi && isNumField pa then
        some ⟨ma, mi, pa, none, p2.2, p1.2⟩
      else none
    | [ma, mi, pa, rev] =>
      if isNumField ma && isNumField mi && isNumField pa && isNumField rev then
        some ⟨ma, mi, pa, some rev, p2.2, p1.2⟩
      else none
    | _ => none
  else none

/-- The prerelease loop of Parse (src/semver.go lines 417-423): construct a
PRVersion per segment, aborting on the first failure. -/
def preFromSegs : List (List Char) → Option (List PRVersion)
  | [] => some []
  | s :: rest =>
    match NewPRVersion s with
    | none => none
    | some p =>
      match preFromSegs rest with
      | none => none
      | some ps => some (p :: ps)

/-- The build loop of Parse (src/semver.go lines 426-434). -/
def buildFromSegs : List (List Char) → Option (List (List Char))
  | [] => some []
  | b :: rest =>
    if b.length = 0 then none
    else if containsOnly b alphanum = false then none
    else
      match buildFromSegs rest with
      | none => none
      | some bs => some (b :: bs)

/-- The field-conversion phase of Parse (src/semver.go lines 378-436), applied
once the strict grammar has matched: sequential conversion with the first
failure aborting, exactly as the Go error returns do. -/
def buildVersion (ma mi pa : List Char) (rev? pre? bld? : Option (List Char)) :
    Option Version :=
  match parseUint64 ma with
  | none => none
  | some major =>
    match parseUint64 mi with
    | none => none
    | some minor =>
      match parseUint64 pa with
      | none => none
      | some patch =>
        match (match rev? with
               | none => some (-1 : Int)
               | some r => parseInt64Digits r) with
        | none => none
        | some rev =>
          match (match pre? with
                 | none => some []
                 | some p => preFromSegs (splitOnDot p)) with
          | none => none
          | some pre =>
            match (match bld? with
                   | none => some []
                   | some b => buildFromSegs (splitOnDot b)) with
            | none => none
            | some bld => some ⟨major, minor, patch, rev, pre, bld⟩

/-- Parse (src/semver.go lines 368-437). -/
def Parse (s : List Char) : Option Version :=
  if s.length = 0 then none
  else
    match matchStrict s with
    | none => none
    | some f =>
      buildVersion f.major f.minor f.patch f.revision f.prerelease f.buildmetadata

/-- Decimal digit character of n < 10. -/
def digitChar (n : Nat) : Char := Char.ofNat (48 + n)

/-- Fuel-driven decimal rendering (structural so kernel reduction works). -/
def natDigitsAux : Nat → Nat → List Char
  | 0, _ => []
  | fuel + 1, n =>
    if n < 10 then [digitChar n]
    else natDigitsAux fuel (n / 10) ++ [digitChar (n % 10)]

/-- strconv.AppendUint(b, n, 10): the decimal rendering of n. -/
def natDigits (n : Nat) : List Char := natDigitsAux (n + 1) n

/-- PRVersion.String (src/semver.go lines 516-521). -/
def PRVersion.String (v : PRVersion) : List Char :=
  if v.IsNum then natDigits v.VersionNum else v.VersionStr

/-- The major.minor.patch(.revision) part of Version.String
(src/semver.go lines 53-62). -/
def coreRender (v : Version) : List Char :=
  natDigits v.Major ++ '.' :: natDigits v.Minor ++ '.' :: natDigits v.Patch
    ++ (if 0 ≤ v.Revision then '.' :: natDigits v.Revision.toNat else [])

/-- The -prerelease part of Version.String (src/semver.go lines 64-72). -/
def preRender (pre : List PRVersion) : List Char :=
  match pre with
  | [] => []
  | _ :: _ => '-' :: dotJoin (pre.map PRVersion.String)

/-- The +build part of Version.String (src/semver.go lines 74-82). -/
def buildRender (bld : List (List Char)) : List Char :=
  match bld with
  | [] => []
  | _ :: _ => '+' :: dotJoin bld

/-- Version.String (src/semver.go lines 52-85). -/
def Version.String (v : Version) : List Char :=
  coreRender v ++ preRender v.Pre ++ buildRender v.Build

/-- The whitespace class of Go's regexp (RE2 perl class): tab, newline, form
feed, carriage return, space. -/
def isSpaceGo (c : Char) : Bool :=
  c = ' ' || c = '\t' || c = '\n' || c.val == 12 || c.val == 13

/-- Greedy scan of a maximal dotted run of alphanumeric/hyphen segments: the text
the tolerant prerelease and build captures consume. Consumes alphanumeric
characters, and a dot only when an alphanumeric character follows it. -/
def grabDotted : List Char → List Char × List Char
  | [] => ([], [])
  | c :: rest =>
    if alphanum.contains c then
      (c :: (grabDotted rest).1, (grabDotted rest).2)
    else if c = '.' then
      match rest with
      | [] => ([], c :: rest)
      | d :: _ =>
        if alphanum.contains d then
          ('.' :: (grabDotted rest).1, (grabDotted rest).2)
        else ([], c :: rest)
    else ([], c :: rest)

/-- A tolerant prerelease/build capture: fails unless the text starts with an
alphanumeric character; otherwise captures the maximal dotted run. -/
def scanDotted (s : List Char) : Option (List Char × List Char) :=
  match s with
  | [] => none
  | c :: _ => if alphanum.contains c then some (grabDotted s) else none

/-- The six named captures of the tolerant regex; the empty string encodes an
absent group, exactly as Go's FindStringSubmatch reports it. -/
structure TolFields where
  major : List Char
  minor : List Char
  patch : List Char
  revision : List Char
  prerelease : List Char
  buildmetadata : List Char
deriving DecidableEq

/-- The leading group of the tolerant regex: it consumes a leading 'v' when the
input starts with one (nothing later in the pattern can consume a 'v'), and
otherwise the maximal run of whitespace. -/
def tolStart (s : List Char) : List Char :=
  if s.head? = some 'v' then s.tail else s.dropWhile isSpaceGo

/-- An optional lone dot of the tolerant regex: consumed when present. -/
def skipDot (s : List Char) : List Char :=
  if s.head? = some '.' then s.tail else s

/-- Remainder after the optional revision arm, which needs a dot followed by a
digit and then takes the maximal digit run. -/
def tolRevRest (s : List Char) : List Char :=
  match s with
  | c :: d :: rest =>
    if c = '.' && numbers.contains d then
      (d :: rest).dropWhile (fun x => numbers.contains x)
    else c :: d :: rest
  | _ => s

/-- Text captured by the optional revision arm. -/
def tolRevText (s : List Char) : List Char :=
  match s with
  | c :: d :: rest =>
    if c = '.' && numbers.contains d then
      (d :: rest).takeWhile (fun x => numbers.contains x)
    else []
  | _ => []

/-- Text captured by an optional marker-plus-dotted-run group (the -prerelease
and +build groups): present only when the marker is the next character and a
dotted run follows. -/
def scanText (marker : Char) (s : List Char) : List Char :=
  match s with
  | c :: rest =>
    if c = marker then
      match scanDotted rest with
      | some r => r.1
      | none => []
    else []
  | [] => []

/-- Remainder after an optional marker-plus-dotted-run group. -/
def scanRest (marker : Char) (s : List Char) : List Char :=
  match s with
  | c :: rest =>
    if c = marker then
      match scanDotted rest with
      | some r => r.2
      | none => c :: rest
    else c :: rest
  | [] => []

/-- Pipeline positions of the tolerant match on input s: after the v/whitespace
group, after major and its dot, after minor and its dot, after patch, after the
revision arm, after the prerelease group, after the build group. -/
def tolS1 (s : List Char) : List Char := tolStart s

def tolS3 (s : List Char) : List Char :=
  skipDot ((tolS1 s).dropWhile (fun c => numbers.contains c))

def tolS5 (s : List Char) : List Char :=
  skipDot ((tolS3 s).dropWhile (fun c => numbers.contains c))

def tolS6 (s : List Char) : List Char :=
  (tolS5 s).dropWhile (fun c => numbers.contains c)

def tolS7 (s : List Char) : List Char := tolRevRest (tolS6 s)

def tolS8 (s : List Char) : List Char := scanRest '-' (tolS7 s)

def tolS9 (s : List Char) : List Char := scanRest '+' (tolS8 s)

/-- Matching of kongTolerantVersionRegexFormat (src/semver.go lines 21-26) with
Go's leftmost-first greedy submatch semantics: the leading group consumes a 'v'
or the maximal whitespace run; each numeric capture takes the maximal digit run;
the optional dots are taken when present; the revision arm needs a dot followed
by a digit; the prerelease and build captures take maximal dotted alphanumeric
runs after their markers; the leftover must be all whitespace. -/
def matchTolerant (s : List Char) : Option TolFields :=
  if (tolS9 s).all isSpaceGo then
    some ⟨(tolS1 s).takeWhile (fun c => numbers.contains c),
          (tolS3 s).takeWhile (fun c => numbers.contains c),
          (tolS5 s).takeWhile (fun c => numbers.contains c),
          tolRevText (tolS6 s),
          scanText '-' (tolS7 s),
          scanText '+' (tolS8 s)⟩
  else none

/-- strings.TrimLeft(s, "0") with the collapse to "0", applied only when the
field has more than one character (src/semver.go lines 308-331). -/
def normalizeZeros (s : List Char) : List Char :=
  if s.length > 1 then
    let t := s.dropWhile (fun c => c = '0')
    if t.isEmpty then chars "0" else t
  else s

/-- The canonical strict-form reassembly of ParseTolerant
(src/semver.go lines 352-362). -/
def assemble (ma mi pa rev pre bld : List Char) : List Char :=
  ma ++ '.' :: mi ++ '.' :: pa
    ++ (if rev.isEmpty then [] else '.' :: rev)
    ++ (if pre.isEmpty then [] else '-' :: pre)
    ++ (if bld.isEmpty then [] else '+' :: bld)

/-- The post-match body of ParseTolerant (src/semver.go lines 330-364):
zero-normalize the numeric captures, fill absent core fields with "0" (failing
if a prerelease or build was supplied alongside an absent core field), and hand
the reassembled strict string to Parse. -/
def tolAssemble (f : TolFields) : Option Version :=
  let majorStr := normalizeZeros f.major
  let minorStr := normalizeZeros f.minor
  let patchStr := normalizeZeros f.patch
  let revisionStr := normalizeZeros f.revision
  if patchStr.isEmpty || minorStr.isEmpty || majorStr.isEmpty then
    if !f.prerelease.isEmpty || !f.buildmetadata.isEmpty then none
    else
      Parse (assemble
        (if majorStr.isEmpty then chars "0" else majorStr)
        (if minorStr.isEmpty then chars "0" else minorStr)
        (if patchStr.isEmpty then chars "0" else patchStr)
        revisionStr f.prerelease f.buildmetadata)
  else
    Parse (assemble majorStr minorStr patchStr revisionStr f.prerelease f.buildmetadata)

/-- ParseTolerant (src/semver.go lines 294-365). -/
def ParseTolerant (s : List Char) : Option Version :=
  match matchTolerant s with
  | none => none
  | some f => tolAssemble f

/-- Proof-layer rendering of an optional marker-prefixed capture: the text the
optional -prerelease and +build groups contribute to the matched string. -/
def optMark (marker : Char) (o : Option (List Char)) : List Char :=
  match o with
  | none => []
  | some p => marker :: p

/-- Proof-layer rendering of the dotted core of a strict match (major, minor,
patch and the optional revision). -/
def strictCore (ma mi pa : List Char) (rv : Option (List Char)) : List Char :=
  match rv with
  | none => dotJoin [ma, mi, pa]
  | some r => dotJoin [ma, mi, pa, r]

/-- Proof-layer rendering of the input remainder at the revision arm of the
tolerant pipeline: the optional .revision text followed by the rest R. -/
def revTail (rv : Option (List Char)) (R : List Char) : List Char :=
  match rv with
  | none => R
  | some r => '.' :: (r ++ R)

/-- Comparator chaining: the overall result is the first stage's verdict unless
that stage reports a tie (proof-layer decomposition of the Compare if-chain). -/
def ccat (x y : Int) : Int := if x = 0 then y else x

/-- The major/minor/patch stage of Version.Compare as a comparator value. -/
def natCmp (x y : Nat) : Int := if x ≠ y then if x > y then 1 else -1 else 0

/-- The revision stage of Version.Compare as a comparator value. -/
def revCmp (x y : Int) : Int :=
  if x ≠ y ∧ x ≠ -1 ∧ y ≠ -1 then if x > y then 1 else -1 else 0

/-- Revision-presence uniformity: the three versions either all lack a revision
or all have one (in the code's encoding: all equal to -1 or all different
from -1). -/
def SamePresence (a b c : Version) : Prop :=
  (a.Revision = -1 ∧ b.Revision = -1 ∧ c.Revision = -1) ∨
    (a.Revision ≠ -1 ∧ b.Revision ≠ -1 ∧ c.Revision ≠ -1)

/-- Invariant of PRVersion values built by NewPRVersion: a numeric identifier
carries an empty text and a value below 2^64; an alphanumeric one carries a
non-empty alphanumeric text that is not all digits, and value 0. -/
def ValidPR (p : PRVersion) : Prop :=
  (p.IsNum = true ∧ p.VersionStr = [] ∧ p.VersionNum < 2 ^ 64) ∨
  (p.IsNum = false ∧ p.VersionNum = 0 ∧ p.VersionStr ≠ [] ∧
    containsOnly p.VersionStr alphanum = true ∧
    containsOnly p.VersionStr numbers = false)

/-- Invariant of Version values built by Parse: numeric fields are in the Go
integer ranges, the revision is -1 or in the int64 range, every prerelease
identifier satisfies ValidPR, and every build segment is non-empty and
alphanumeric. -/
def ValidVersion (v : Version) : Prop :=
  v.Major < 2 ^ 64 ∧ v.Minor < 2 ^ 64 ∧ v.Patch < 2 ^ 64 ∧
  (v.Revision = -1 ∨ (0 ≤ v.Revision ∧ v.Revision ≤ 2 ^ 63 - 1)) ∧
  (∀ p ∈ v.Pre, ValidPR p) ∧
  (∀ b ∈ v.Build, b ≠ [] ∧ containsOnly b alphanum = true)

/-! Properties of the Go string order used by the prerelease comparator. -/

theorem strLt_nil_right (a : List Char) : strLt a [] = false := by
  cases a <;> rfl

theorem strLt_irrefl (a : List Char) : strLt a a = false := by
  induction a with
  | nil => rfl
  | cons x xs ih => simp [strLt, lt_self_iff_false, ih]

theorem strLt_asymm {a b : List Char} (h : strLt a b = true) : strLt b a = false := by
  induction a generalizing b with
  | nil =>
    cases b with
    | nil => simp [strLt] at h
    | cons y ys => rfl
  | cons x xs ih =>
    cases b with
    | nil => simp [strLt] at h
    | cons y ys =>
      by_cases h1 : x < y
      · simp [strLt, h1, lt_asymm h1]
      · by_cases h2 : y < x
        · simp [strLt, h1, h2] at h
        · simp only [strLt, if_neg h1, if_neg h2] at h
          simp only [strLt, if_neg h2, if_neg h1]
          exact ih h

theorem strLt_connex {a b : List Char} (h1 : strLt a b = false)
    (h2 : strLt b a = false) : a = b := by
  induction a generalizing b with
  | nil =>
    cases b with
    | nil => rfl
    | cons y ys => simp [strLt] at h1
  | cons x xs ih =>
    cases b with
    | nil => simp [strLt] at h2
    | cons y ys =>
      by_cases hxy : x < y
      · simp [strLt, hxy] at h1
      · by_cases hyx : y < x
        · simp [strLt, hyx] at h2
        · simp only [strLt, if_neg hxy, if_neg hyx] at h1
          simp only [strLt, if_neg hyx, if_neg hxy] at h2
          have hx : x = y := le_antisymm (not_lt.1 hyx) (not_lt.1 hxy)
          rw [hx, ih h1 h2]

theorem strLt_trans {a b c : List Char} (h1 : strLt a b = true)
    (h2 : strLt b c = true) : strLt a c = true := by
  induction a generalizing b c with
  | nil =>
    cases c with
    | nil => rw [strLt_nil_right] at h2; exact absurd h2 (by simp)
    | cons z zs => rfl
  | cons x xs ih =>
    cases b with
    | nil => simp [strLt] at h1
    | cons y ys =>
      cases c with
      | nil => simp [strLt] at h2
      | cons z zs =>
        by_cases hxy : x < y
        · by_cases hyz : y < z
          · simp [strLt, lt_trans hxy hyz]
          · by_cases hzy : z < y
            · simp [strLt, hyz, hzy] at h2
            · have : y = z := le_antisymm (not_lt.1 hzy) (not_lt.1 hyz)
              subst this
              simp [strLt, hxy]
        · by_cases hyx : y < x
          · simp [strLt, hxy, hyx] at h1
          · have hx : x = y := le_antisymm (not_lt.1 hyx) (not_lt.1 hxy)
            subst hx
            simp only [strLt, if_neg hxy, if_neg hyx] at h1
            by_cases hxz : x < z
            · simp [strLt, hxz]
            · by_cases hzx : z < x
              · simp [strLt, hxz, hzx] at h2
              · simp only [strLt, if_neg hxz, if_neg hzx] at h2 ⊢
                exact ih h1 h2

/-! Properties of PRVersion.Compare. -/

theorem prCompare_self (v : PRVersion) : v.Compare v = 0 := by
  cases h : v.IsNum <;> simp [PRVersion.Compare, h]

theorem prCompare_mem (v o : PRVersion) :
    v.Compare o = -1 ∨ v.Compare o = 0 ∨ v.Compare o = 1 := by
  cases hv : v.IsNum <;> cases ho : o.IsNum <;>
    simp only [PRVersion.Compare, hv, ho]
  · split_ifs <;> simp
  · simp
  · simp
  · split_ifs <;> simp

theorem prCompare_antisym (v o : PRVersion) : o.Compare v = -(v.Compare o) := by
  cases hv : v.IsNum <;> cases ho : o.IsNum <;>
    simp only [PRVersion.Compare, hv, ho]
  · by_cases he : v.VersionStr = o.VersionStr
    · simp [he]
    · have he' : ¬ o.VersionStr = v.VersionStr := fun hq => he hq.symm
      by_cases hlt : strLt o.VersionStr v.VersionStr = true
      · have h2 : strLt v.VersionStr o.VersionStr = false := strLt_asymm hlt
        simp [he, he', hlt, h2]
      · have hba : strLt o.VersionStr v.VersionStr = false :=
          Bool.eq_false_iff.2 hlt
        have hlt' : strLt v.VersionStr o.VersionStr = true := by
          cases hq : strLt v.VersionStr o.VersionStr
          · exact absurd (strLt_connex hq hba) he
          · rfl
        simp [he, he', hlt, hlt']
  all_goals try norm_num
  · split_ifs <;> omega

theorem prCompare_zero_congr {v w : PRVersion} (h : v.Compare w = 0) (u : PRVersion) :
    v.Compare u = w.Compare u := by
  cases hv : v.IsNum <;> cases hw : w.IsNum <;>
    simp only [PRVersion.Compare, hv, hw] at h ⊢
  all_goals try (exfalso; revert h; decide)
  · split_ifs at h with h1
    all_goals try (exfalso; revert h; decide)
    cases hu : u.IsNum <;> simp only [h1]
  · split_ifs at h with h1
    all_goals try (exfalso; revert h; decide)
    cases hu : u.IsNum <;> simp only [h1]

theorem prCompare_zero_congr_right {v w : PRVersion} (h : v.Compare w = 0)
    (u : PRVersion) : u.Compare v = u.Compare w := by
  have h1 : v.Compare u = w.Compare u := prCompare_zero_congr h u
  have h2 : u.Compare v = -(v.Compare u) := prCompare_antisym v u
  have h3 : u.Compare w = -(w.Compare u) := prCompare_antisym w u
  rw [h2, h3, h1]

theorem prCompare_neg_trans {a b c : PRVersion} (h1 : a.Compare b = -1)
    (h2 : b.Compare c = -1) : a.Compare c = -1 := by
  cases ha : a.IsNum <;> cases hb : b.IsNum <;> cases hc : c.IsNum <;>
    simp only [PRVersion.Compare, ha, hb, hc] at h1 h2 ⊢
  all_goals try (exfalso; revert h1; decide)
  all_goals try (exfalso; revert h2; decide)
  -- (false,false,false): string transitivity
  · by_cases he1 : a.VersionStr = b.VersionStr
    · rw [he1]; exact h2
    · by_cases he2 : b.VersionStr = c.VersionStr
      · rw [← he2]
        simp only [if_neg he1] at h1 ⊢
        exact h1
      · simp only [if_neg he1] at h1
        simp only [if_neg he2] at h2
        have hba : strLt b.VersionStr a.VersionStr = false := by
          cases hq : strLt b.VersionStr a.VersionStr
          · rfl
          · rw [hq] at h1; exact absurd h1 (by norm_num)
        have hcb : strLt c.VersionStr b.VersionStr = false := by
          cases hq : strLt c.VersionStr b.VersionStr
          · rfl
          · rw [hq] at h2; exact absurd h2 (by norm_num)
        have hab : strLt a.VersionStr b.VersionStr = true := by
          cases hq : strLt a.VersionStr b.VersionStr
          · exact absurd (strLt_connex hq hba) he1
          · rfl
        have hbc : strLt b.VersionStr c.VersionStr = true := by
          cases hq : strLt b.VersionStr c.VersionStr
          · exact absurd (strLt_connex hq hcb) he2
          · rfl
        have hac := strLt_trans hab hbc
        have hne : ¬ a.VersionStr = c.VersionStr := by
          intro hq
          rw [hq] at hac
          rw [strLt_asymm hac] at hac
          exact Bool.false_ne_true hac
        simp [hne, strLt_asymm hac]
  -- (true,true,true): numeric transitivity
  · split_ifs at h1 h2 <;> split_ifs <;> omega

/-! Properties of the element-wise prerelease comparison. -/

theorem cpl_self (l : List PRVersion) : comparePreLists l l = 0 := by
  induction l with
  | nil => rfl
  | cons a as ih => simp [comparePreLists, prCompare_self, ih]

theorem cpl_mem (x y : List PRVersion) :
    comparePreLists x y = -1 ∨ comparePreLists x y = 0 ∨ comparePreLists x y = 1 := by
  induction x generalizing y with
  | nil => cases y <;> simp [comparePreLists]
  | cons a as ih =>
    cases y with
    | nil => simp [comparePreLists]
    | cons b bs =>
      simp only [comparePreLists]
      split_ifs <;> simp [ih bs]

theorem cpl_antisym (x y : List PRVersion) :
    comparePreLists y x = -(comparePreLists x y) := by
  induction x generalizing y with
  | nil => cases y <;> simp [comparePreLists]
  | cons a as ih =>
    cases y with
    | nil => simp [comparePreLists]
    | cons b bs =>
      simp only [comparePreLists]
      have hba : b.Compare a = -(a.Compare b) := prCompare_antisym a b
      rcases prCompare_mem a b with h | h | h <;>
        rw [h] at hba <;> norm_num at hba <;> simp [h, hba, ih bs]

theorem cpl_zero_congr {x y : List PRVersion} (h : comparePreLists x y = 0)
    (z : List PRVersion) : comparePreLists x z = comparePreLists y z := by
  induction x generalizing y z with
  | nil =>
    cases y with
    | nil => rfl
    | cons b bs => simp [comparePreLists] at h
  | cons a as ih =>
    cases y with
    | nil => simp [comparePreLists] at h
    | cons b bs =>
      simp only [comparePreLists] at h
      have hab : a.Compare b = 0 := by
        rcases prCompare_mem a b with hq | hq | hq
        · rw [hq] at h; norm_num at h
        · exact hq
        · rw [hq] at h; norm_num at h
      have hrest : comparePreLists as bs = 0 := by
        rw [hab] at h; simpa using h
      cases z with
      | nil => rfl
      | cons c cs =>
        simp only [comparePreLists]
        rw [prCompare_zero_congr hab c, ih hrest cs]

theorem cpl_zero_congr_right {y z : List PRVersion} (h : comparePreLists y z = 0)
    (x : List PRVersion) : comparePreLists x y = comparePreLists x z := by
  have e1 : comparePreLists x y = -(comparePreLists y x) := by
    have := cpl_antisym x y; omega
  have e2 : comparePreLists x z = -(comparePreLists z x) := by
    have := cpl_antisym x z; omega
  rw [e1, cpl_zero_congr h x, ← e2]

theorem cpl_neg_trans {x y z : List PRVersion} (h1 : comparePreLists x y = -1)
    (h2 : comparePreLists y z = -1) : comparePreLists x z = -1 := by
  induction x generalizing y z with
  | nil =>
    cases y with
    | nil => simp [comparePreLists] at h1
    | cons b bs =>
      cases z with
      | nil => simp [comparePreLists] at h2
      | cons c cs => rfl
  | cons a as ih =>
    cases y with
    | nil => simp [comparePreLists] at h1
    | cons b bs =>
      cases z with
      | nil => simp [comparePreLists] at h2
      | cons c cs =>
        simp only [comparePreLists] at h1 h2 ⊢
        rcases prCompare_mem a b with q1 | q1 | q1 <;>
          rcases prCompare_mem b c with q2 | q2 | q2
        · simp [prCompare_neg_trans q1 q2]
        · rw [← prCompare_zero_congr_right q2 a]
          simp [q1]
        · rw [q2] at h2; norm_num at h2
        · rw [prCompare_zero_congr q1 c]
          simp [q2]
        · rw [q1] at h1
          rw [q2] at h2
          simp only [q1] at h1
          norm_num at h1 h2
          rw [prCompare_zero_congr q1 c, q2]
          simpa using ih h1 h2
        · rw [q2] at h2; norm_num at h2
        · rw [q1] at h1; norm_num at h1
        · rw [q1] at h1; norm_num at h1
        · rw [q1] at h1; norm_num at h1

theorem cpl_le_trans {x y z : List PRVersion} (h1 : comparePreLists x y ≤ 0)
    (h2 : comparePreLists y z ≤ 0) : comparePreLists x z ≤ 0 := by
  rcases cpl_mem x y with q1 | q1 | q1
  · rcases cpl_mem y z with q2 | q2 | q2
    · rw [cpl_neg_trans q1 q2]; norm_num
    · rw [← cpl_zero_congr_right q2 x, q1]; norm_num
    · rw [q2] at h2; omega
  · rw [cpl_zero_congr q1 z]; exact h2
  · rw [q1] at h1; omega

/-! Properties of the full prerelease stage. -/

theorem preCompare_nil_nil : preCompare [] [] = 0 := by
  simp [preCompare]

theorem preCompare_nil_cons (b : PRVersion) (bs : List PRVersion) :
    preCompare [] (b :: bs) = 1 := by
  simp [preCompare]

theorem preCompare_cons_nil (a : PRVersion) (as : List PRVersion) :
    preCompare (a :: as) [] = -1 := by
  simp [preCompare]

theorem preCompare_cons_cons (a b : PRVersion) (as bs : List PRVersion) :
    preCompare (a :: as) (b :: bs) = comparePreLists (a :: as) (b :: bs) := by
  simp [preCompare]

theorem preCompare_self (l : List PRVersion) : preCompare l l = 0 := by
  cases l with
  | nil => exact preCompare_nil_nil
  | cons a as => rw [preCompare_cons_cons, cpl_self]

theorem preCompare_mem (x y : List PRVersion) :
    preCompare x y = -1 ∨ preCompare x y = 0 ∨ preCompare x y = 1 := by
  cases x with
  | nil =>
    cases y with
    | nil => rw [preCompare_nil_nil]; simp
    | cons b bs => rw [preCompare_nil_cons]; simp
  | cons a as =>
    cases y with
    | nil => rw [preCompare_cons_nil]; simp
    | cons b bs => rw [preCompare_cons_cons]; exact cpl_mem _ _

theorem preCompare_antisym (x y : List PRVersion) :
    preCompare y x = -(preCompare x y) := by
  cases x with
  | nil =>
    cases y with
    | nil => rw [preCompare_nil_nil]; norm_num
    | cons b bs => rw [preCompare_nil_cons, preCompare_cons_nil]
  | cons a as =>
    cases y with
    | nil => rw [preCompare_cons_nil, preCompare_nil_cons]; norm_num
    | cons b bs =>
      rw [preCompare_cons_cons, preCompare_cons_cons]; exact cpl_antisym _ _

theorem preCompare_zero_trans {x y z : List PRVersion} (h1 : preCompare x y = 0)
    (h2 : preCompare y z = 0) : preCompare x z = 0 := by
  cases x with
  | nil =>
    cases y with
    | nil => exact h2
    | cons b bs => rw [preCompare_nil_cons] at h1; omega
  | cons a as =>
    cases y with
    | nil => rw [preCompare_cons_nil] at h1; omega
    | cons b bs =>
      cases z with
      | nil => rw [preCompare_cons_nil] at h2; omega
      | cons c cs =>
        rw [preCompare_cons_cons] at h1 h2 ⊢
        rw [cpl_zero_congr h1 (c :: cs)]; exact h2

theorem preCompare_le_trans {x y z : List PRVersion} (h1 : preCompare x y ≤ 0)
    (h2 : preCompare y z ≤ 0) : preCompare x z ≤ 0 := by
  cases x with
  | nil =>
    cases y with
    | nil => exact h2
    | cons b bs => rw [preCompare_nil_cons] at h1; omega
  | cons a as =>
    cases y with
    | nil =>
      cases z with
      | nil => exact h1
      | cons c cs => rw [preCompare_nil_cons] at h2; omega
    | cons b bs =>
      cases z with
      | nil => rw [preCompare_cons_nil]; omega
      | cons c cs =>
        rw [preCompare_cons_cons] at h1 h2 ⊢
        exact cpl_le_trans h1 h2

/-! Decomposition of Version.Compare into a chain of stage comparators, and the
generic facts about chaining needed for the order-theoretic claims. -/

theorem compare_eq_ccat (v o : Version) :
    Version.Compare v o =
      ccat (natCmp v.Major o.Major)
        (ccat (natCmp v.Minor o.Minor)
          (ccat (natCmp v.Patch o.Patch)
            (ccat (revCmp v.Revision o.Revision) (preCompare v.Pre o.Pre)))) := by
  by_cases h1 : v.Major = o.Major
  · by_cases h2 : v.Minor = o.Minor
    · by_cases h3 : v.Patch = o.Patch
      · by_cases h4 : v.Revision ≠ o.Revision ∧ v.Revision ≠ -1 ∧ o.Revision ≠ -1
        · by_cases h5 : v.Revision > o.Revision
          · simp [Version.Compare, ccat, natCmp, revCmp, h1, h2, h3, h4, h5]
          · simp [Version.Compare, ccat, natCmp, revCmp, h1, h2, h3, h4, h5]
        · simp [Version.Compare, ccat, natCmp, revCmp, h1, h2, h3, h4]
      · by_cases h5 : v.Patch > o.Patch
        · simp [Version.Compare, ccat, natCmp, revCmp, h1, h2, h3, h5]
        · simp [Version.Compare, ccat, natCmp, revCmp, h1, h2, h3, h5]
    · by_cases h5 : v.Minor > o.Minor
      · simp [Version.Compare, ccat, natCmp, revCmp, h1, h2, h5]
      · simp [Version.Compare, ccat, natCmp, revCmp, h1, h2, h5]
  · by_cases h5 : v.Major > o.Major
    · simp [Version.Compare, ccat, natCmp, revCmp, h1, h5]
    · simp [Version.Compare, ccat, natCmp, revCmp, h1, h5]

theorem natCmp_mem (x y : Nat) :
    natCmp x y = -1 ∨ natCmp x y = 0 ∨ natCmp x y = 1 := by
  unfold natCmp; split_ifs <;> simp

theorem natCmp_self (x : Nat) : natCmp x x = 0 := by
  unfold natCmp; simp

theorem natCmp_neg (x y : Nat) : natCmp y x = -(natCmp x y) := by
  unfold natCmp; split_ifs <;> omega

theorem natCmp_hz {x y z : Nat} (h1 : natCmp x y = 0) (h2 : natCmp y z = 0) :
    natCmp x z = 0 := by
  unfold natCmp at *; split_ifs at * <;> omega

theorem natCmp_hl {x y z : Nat} (h1 : natCmp x y = 0) : natCmp x z = natCmp y z := by
  unfold natCmp at *; split_ifs at * <;> omega

theorem natCmp_hr {x y z : Nat} (h2 : natCmp y z = 0) : natCmp x z = natCmp x y := by
  unfold natCmp at *; split_ifs at * <;> omega

theorem natCmp_ht {x y z : Nat} (h1 : natCmp x y = -1) (h2 : natCmp y z = -1) :
    natCmp x z = -1 := by
  unfold natCmp at *; split_ifs at * <;> omega

theorem revCmp_mem (x y : Int) :
    revCmp x y = -1 ∨ revCmp x y = 0 ∨ revCmp x y = 1 := by
  unfold revCmp; split_ifs <;> simp

theorem revCmp_self (x : Int) : revCmp x x = 0 := by
  unfold revCmp; simp

theorem revCmp_neg (x y : Int) : revCmp y x = -(revCmp x y) := by
  unfold revCmp; split_ifs <;> omega

theorem revCmp_hz {x y z : Int}
    (hU : (x = -1 ∧ y = -1 ∧ z = -1) ∨ (x ≠ -1 ∧ y ≠ -1 ∧ z ≠ -1))
    (h1 : revCmp x y = 0) (h2 : revCmp y z = 0) : revCmp x z = 0 := by
  unfold revCmp at *; split_ifs at * <;> omega

theorem revCmp_hl {x y z : Int}
    (hU : (x = -1 ∧ y = -1 ∧ z = -1) ∨ (x ≠ -1 ∧ y ≠ -1 ∧ z ≠ -1))
    (h1 : revCmp x y = 0) : revCmp x z = revCmp y z := by
  unfold revCmp at *; split_ifs at * <;> omega

theorem revCmp_hr {x y z : Int}
    (hU : (x = -1 ∧ y = -1 ∧ z = -1) ∨ (x ≠ -1 ∧ y ≠ -1 ∧ z ≠ -1))
    (h2 : revCmp y z = 0) : revCmp x z = revCmp x y := by
  unfold revCmp at *; split_ifs at * <;> omega

theorem revCmp_ht {x y z : Int}
    (hU : (x = -1 ∧ y = -1 ∧ z = -1) ∨ (x ≠ -1 ∧ y ≠ -1 ∧ z ≠ -1))
    (h1 : revCmp x y = -1) (h2 : revCmp y z = -1) : revCmp x z = -1 := by
  unfold revCmp at *; split_ifs at * <;> omega

theorem ccat_mem {u r : Int} (hu : u = -1 ∨ u = 0 ∨ u = 1)
    (hr : r = -1 ∨ r = 0 ∨ r = 1) :
    ccat u r = -1 ∨ ccat u r = 0 ∨ ccat u r = 1 := by
  unfold ccat; split_ifs <;> omega

theorem ccat_neg {u₁ u₂ r₁ r₂ : Int} (hu : u₂ = -u₁) (hr : r₂ = -r₁) :
    ccat u₂ r₂ = -(ccat u₁ r₁) := by
  unfold ccat; split_ifs <;> omega

theorem ccat_self {u r : Int} (hu : u = 0) (hr : r = 0) : ccat u r = 0 := by
  unfold ccat; split_ifs <;> omega

theorem ccat_zero_trans {u₁ u₂ u₃ r₁ r₂ r₃ : Int}
    (hz : u₁ = 0 → u₂ = 0 → u₃ = 0)
    (hrec : r₁ = 0 → r₂ = 0 → r₃ = 0)
    (h₁ : ccat u₁ r₁ = 0) (h₂ : ccat u₂ r₂ = 0) : ccat u₃ r₃ = 0 := by
  unfold ccat at *
  by_cases e₁ : u₁ = 0
  · by_cases e₂ : u₂ = 0
    · rw [if_pos e₁] at h₁
      rw [if_pos e₂] at h₂
      rw [if_pos (hz e₁ e₂)]
      exact hrec h₁ h₂
    · rw [if_neg e₂] at h₂
      exact absurd h₂ e₂
  · rw [if_neg e₁] at h₁
    exact absurd h₁ e₁

theorem ccat_le_trans {u₁ u₂ u₃ r₁ r₂ r₃ : Int}
    (m₁ : u₁ = -1 ∨ u₁ = 0 ∨ u₁ = 1) (m₂ : u₂ = -1 ∨ u₂ = 0 ∨ u₂ = 1)
    (hz : u₁ = 0 → u₂ = 0 → u₃ = 0)
    (hl : u₁ = 0 → u₃ = u₂)
    (hr : u₂ = 0 → u₃ = u₁)
    (ht : u₁ = -1 → u₂ = -1 → u₃ = -1)
    (hrec : r₁ ≤ 0 → r₂ ≤ 0 → r₃ ≤ 0)
    (h₁ : ccat u₁ r₁ ≤ 0) (h₂ : ccat u₂ r₂ ≤ 0) :
    ccat u₃ r₃ ≤ 0 := by
  unfold ccat at h₁ h₂ ⊢
  by_cases e₁ : u₁ = 0 <;> by_cases e₂ : u₂ = 0
  · have e₃ := hz e₁ e₂
    rw [if_pos e₃]
    exact hrec (by rwa [if_pos e₁] at h₁) (by rwa [if_pos e₂] at h₂)
  · rw [if_neg e₂] at h₂
    have hm : u₂ = -1 := by rcases m₂ with q | q | q <;> omega
    have e₃ : u₃ = -1 := by rw [hl e₁, hm]
    split_ifs <;> omega
  · rw [if_neg e₁] at h₁
    have hm : u₁ = -1 := by rcases m₁ with q | q | q <;> omega
    have e₃ : u₃ = -1 := by rw [hr e₂, hm]
    split_ifs <;> omega
  · rw [if_neg e₁] at h₁
    rw [if_neg e₂] at h₂
    have hm₁ : u₁ = -1 := by rcases m₁ with q | q | q <;> omega
    have hm₂ : u₂ = -1 := by rcases m₂ with q | q | q <;> omega
    have e₃ : u₃ = -1 := ht hm₁ hm₂
    split_ifs <;> omega

/-! The order-theoretic facts about Version.Compare assembled from the chain. -/

theorem compare_mem (a b : Version) :
    a.Compare b = -1 ∨ a.Compare b = 0 ∨ a.Compare b = 1 := by
  rw [compare_eq_ccat]
  exact ccat_mem (natCmp_mem _ _)
    (ccat_mem (natCmp_mem _ _)
      (ccat_mem (natCmp_mem _ _)
        (ccat_mem (revCmp_mem _ _) (preCompare_mem _ _))))

theorem compare_self (a : Version) : a.Compare a = 0 := by
  rw [compare_eq_ccat]
  exact ccat_self (natCmp_self _)
    (ccat_self (natCmp_self _)
      (ccat_self (natCmp_self _)
        (ccat_self (revCmp_self _) (preCompare_self _))))

theorem compare_antisym (a b : Version) : b.Compare a = -(a.Compare b) := by
  rw [compare_eq_ccat, compare_eq_ccat]
  exact ccat_neg (natCmp_neg _ _)
    (ccat_neg (natCmp_neg _ _)
      (ccat_neg (natCmp_neg _ _)
        (ccat_neg (revCmp_neg _ _) (preCompare_antisym _ _))))

theorem compare_zero_trans {a b c : Version} (hU : SamePresence a b c)
    (h₁ : a.Compare b = 0) (h₂ : b.Compare c = 0) : a.Compare c = 0 := by
  rw [compare_eq_ccat] at h₁ h₂ ⊢
  refine ccat_zero_trans natCmp_hz (fun p₁ p₂ => ?_) h₁ h₂
  refine ccat_zero_trans natCmp_hz (fun q₁ q₂ => ?_) p₁ p₂
  refine ccat_zero_trans natCmp_hz (fun s₁ s₂ => ?_) q₁ q₂
  exact ccat_zero_trans (revCmp_hz hU) (fun t₁ t₂ => preCompare_zero_trans t₁ t₂) s₁ s₂

theorem compare_le_trans {a b c : Version} (hU : SamePresence a b c)
    (h₁ : a.Compare b ≤ 0) (h₂ : b.Compare c ≤ 0) : a.Compare c ≤ 0 := by
  rw [compare_eq_ccat] at h₁ h₂ ⊢
  refine ccat_le_trans (natCmp_mem _ _) (natCmp_mem _ _) natCmp_hz natCmp_hl
    natCmp_hr natCmp_ht (fun p₁ p₂ => ?_) h₁ h₂
  refine ccat_le_trans (natCmp_mem _ _) (natCmp_mem _ _) natCmp_hz natCmp_hl
    natCmp_hr natCmp_ht (fun q₁ q₂ => ?_) p₁ p₂
  refine ccat_le_trans (natCmp_mem _ _) (natCmp_mem _ _) natCmp_hz natCmp_hl
    natCmp_hr natCmp_ht (fun s₁ s₂ => ?_) q₁ q₂
  exact ccat_le_trans (revCmp_mem _ _) (revCmp_mem _ _) (revCmp_hz hU)
    (revCmp_hl hU) (revCmp_hr hU) (revCmp_ht hU)
    (fun t₁ t₂ => preCompare_le_trans t₁ t₂) s₁ s₂

/-! Further helper characterizations used by the claim theorems. -/

theorem compare_of_head_eq {a b : Version} (h1 : a.Major = b.Major)
    (h2 : a.Minor = b.Minor) (h3 : a.Patch = b.Patch)
    (h4 : a.Revision = b.Revision ∨ a.Revision = -1 ∨ b.Revision = -1) :
    a.Compare b = preCompare a.Pre b.Pre := by
  have hc : ¬(a.Revision ≠ b.Revision ∧ a.Revision ≠ -1 ∧ b.Revision ≠ -1) := by
    omega
  simp [Version.Compare, h1, h2, h3, hc]

theorem prCompare_num_num {x y : PRVersion} (hx : x.IsNum = true)
    (hy : y.IsNum = true) :
    (x.Compare y = 0 ↔ x.VersionNum = y.VersionNum) ∧
    (x.Compare y = -1 ↔ x.VersionNum < y.VersionNum) := by
  simp only [PRVersion.Compare, hx, hy]
  by_cases h1 : x.VersionNum = y.VersionNum
  · rw [if_pos h1]
    refine ⟨⟨fun _ => h1, fun _ => rfl⟩, ?_, ?_⟩
    · intro hq; exact absurd hq (by norm_num)
    · intro hq; omega
  · rw [if_neg h1]
    by_cases h2 : x.VersionNum > y.VersionNum
    · rw [if_pos h2]
      refine ⟨⟨?_, ?_⟩, ?_, ?_⟩
      · intro hq; exact absurd hq (by norm_num)
      · intro hq; exact absurd hq h1
      · intro hq; exact absurd hq (by norm_num)
      · intro hq; omega
    · rw [if_neg h2]
      refine ⟨⟨?_, ?_⟩, ?_, ?_⟩
      · intro hq; exact absurd hq (by norm_num)
      · intro hq; exact absurd hq h1
      · intro hq; omega
      · intro hq; rfl

theorem prCompare_alpha_alpha {x y : PRVersion} (hx : x.IsNum = false)
    (hy : y.IsNum = false) :
    (x.Compare y = 0 ↔ x.VersionStr = y.VersionStr) ∧
    (x.Compare y = -1 ↔ strLt x.VersionStr y.VersionStr = true) := by
  simp only [PRVersion.Compare, hx, hy]
  constructor
  · split_ifs with h1 h2
    · simp [h1]
    · constructor
      · intro hq; exact absurd hq (by norm_num)
      · intro hq; exact absurd hq h1
    · constructor
      · intro hq; exact absurd hq (by norm_num)
      · intro hq; exact absurd hq h1
  · split_ifs with h1 h2
    · rw [h1]
      constructor
      · intro hq; exact absurd hq (by norm_num)
      · intro hq; rw [strLt_irrefl] at hq; exact absurd hq (by norm_num)
    · constructor
      · intro hq; exact absurd hq (by norm_num)
      · intro hq; rw [strLt_asymm hq] at h2; exact absurd h2 (by norm_num)
    · have hq : strLt x.VersionStr y.VersionStr = true := by
        cases hr : strLt x.VersionStr y.VersionStr
        · have hba : strLt y.VersionStr x.VersionStr = false := by
            cases hs : strLt y.VersionStr x.VersionStr
            · rfl
            · exact absurd hs h2
          exact absurd (strLt_connex hr hba) h1
        · rfl
      simp [hq]

theorem cpl_cons_cons (x y : PRVersion) (xs ys : List PRVersion) :
    comparePreLists (x :: xs) (y :: ys) =
      if x.Compare y = 0 then comparePreLists xs ys
      else if x.Compare y = 1 then 1 else -1 := rfl

theorem cpl_strict_self_prefix (l m : List PRVersion) (hm : m ≠ []) :
    comparePreLists l (l ++ m) = -1 := by
  induction l with
  | nil =>
    cases m with
    | nil => exact absurd rfl hm
    | cons c cs => rfl
  | cons a as ih => simp [comparePreLists, prCompare_self, ih]

/-! Claim theorems. -/

/-- C1 counterexample: Compare is not transitive on parsed Versions. The parsed
versions of 1.2.3.0, 1.2.3 and 1.2.3.1 give Compare(a,b)=0 and Compare(b,c)=0 but
Compare(a,c)=-1, refuting both zero-transitivity and le-transitivity. -/
theorem C1_counterexample :
    Parse (chars "1.2.3.0") = some ⟨1, 2, 3, 0, [], []⟩ ∧
    Parse (chars "1.2.3") = some ⟨1, 2, 3, -1, [], []⟩ ∧
    Parse (chars "1.2.3.1") = some ⟨1, 2, 3, 1, [], []⟩ ∧
    Version.Compare ⟨1, 2, 3, 0, [], []⟩ ⟨1, 2, 3, -1, [], []⟩ = 0 ∧
    Version.Compare ⟨1, 2, 3, -1, [], []⟩ ⟨1, 2, 3, 1, [], []⟩ = 0 ∧
    Version.Compare ⟨1, 2, 3, 0, [], []⟩ ⟨1, 2, 3, 1, [], []⟩ = -1 := by
  refine ⟨by decide, by decide, by decide, by decide, by decide, by decide⟩

/-- C1 (amended): Compare always returns exactly one of -1, 0, 1; it is reflexive;
Compare(a,b)=1 implies Compare(b,a)=-1; and it is transitive (both for the = 0 and
the ≤ 0 relation) whenever the three versions agree on revision presence (all
revisions absent or all present) — transitivity fails in general when absent and
present revisions mix, as the counterexample shows. -/
theorem C1_total_order :
    (∀ a b : Version, a.Compare b = -1 ∨ a.Compare b = 0 ∨ a.Compare b = 1) ∧
    (∀ a : Version, a.Compare a = 0) ∧
    (∀ a b : Version, a.Compare b = 1 → b.Compare a = -1) ∧
    (∀ a b c : Version, SamePresence a b c →
      (a.Compare b = 0 → b.Compare c = 0 → a.Compare c = 0) ∧
      (a.Compare b ≤ 0 → b.Compare c ≤ 0 → a.Compare c ≤ 0)) := by
  refine ⟨compare_mem, compare_self, ?_, ?_⟩
  · intro a b h
    rw [compare_antisym, h]
  · intro a b c hU
    exact ⟨compare_zero_trans hU, compare_le_trans hU⟩

/-- C1 witness: the amended theorem applied at concrete versions with all
revisions absent. -/
theorem C1_total_order_witness :
    Version.Compare ⟨1, 0, 0, -1, [], []⟩ ⟨3, 0, 0, -1, [], []⟩ ≤ 0 :=
  (C1_total_order.2.2.2 ⟨1, 0, 0, -1, [], []⟩ ⟨2, 0, 0, -1, [], []⟩
      ⟨3, 0, 0, -1, [], []⟩ (Or.inl ⟨rfl, rfl, rfl⟩)).2 (by decide) (by decide)

/-- C2 counterexample: ParseTolerant does not fail on the empty string; the
tolerant regex matches it (all groups optional), all three core fields are
filled with 0, and parsing succeeds with version 0.0.0. -/
theorem C2_counterexample :
    ParseTolerant (chars "") = some ⟨0, 0, 0, -1, [], []⟩ := by decide

/-- C2 (amended): Parse fails on the empty string (the EmptyInput check), but
ParseTolerant accepts it, returning the Version 0.0.0. -/
theorem C2_empty_input :
    Parse (chars "") = none ∧
    ParseTolerant (chars "") = some ⟨0, 0, 0, -1, [], []⟩ := by
  refine ⟨by decide, by decide⟩

/-- C4: for versions agreeing on major, minor and patch, a difference of two
present (≥ 0) revisions decides the comparison (larger wins); if either revision
is absent, or they are equal, the comparison falls through to the prerelease
stage; in particular Compare(Parse "1.2.3", Parse "1.2.3.0") = 0 and
Compare(Parse "1.2.3.1", Parse "1.2.4") = -1. -/
theorem C4_revision_tie_rule :
    (∀ a b : Version, a.Major = b.Major → a.Minor = b.Minor → a.Patch = b.Patch →
      ((0 ≤ a.Revision → 0 ≤ b.Revision → a.Revision ≠ b.Revision →
         a.Compare b = if a.Revision > b.Revision then 1 else -1) ∧
       ((a.Revision = -1 ∨ b.Revision = -1 ∨ a.Revision = b.Revision) →
         a.Compare b = preCompare a.Pre b.Pre))) ∧
    Parse (chars "1.2.3") = some ⟨1, 2, 3, -1, [], []⟩ ∧
    Parse (chars "1.2.3.0") = some ⟨1, 2, 3, 0, [], []⟩ ∧
    Version.Compare ⟨1, 2, 3, -1, [], []⟩ ⟨1, 2, 3, 0, [], []⟩ = 0 ∧
    Parse (chars "1.2.3.1") = some ⟨1, 2, 3, 1, [], []⟩ ∧
    Parse (chars "1.2.4") = some ⟨1, 2, 4, -1, [], []⟩ ∧
    Version.Compare ⟨1, 2, 3, 1, [], []⟩ ⟨1, 2, 4, -1, [], []⟩ = -1 := by
  refine ⟨?_, by decide, by decide, by decide, by decide, by decide, by decide⟩
  intro a b hM hm hp
  constructor
  · intro q1 q2 q3
    have hc : a.Revision ≠ b.Revision ∧ a.Revision ≠ -1 ∧ b.Revision ≠ -1 :=
      ⟨q3, by omega, by omega⟩
    simp [Version.Compare, hM, hm, hp, hc]
  · intro q
    exact compare_of_head_eq hM hm hp (by omega)

/-- C4 witness: the universal part applied at concrete versions with present,
differing revisions; the larger revision wins. -/
theorem C4_revision_tie_rule_witness :
    Version.Compare ⟨1, 2, 3, 5, [], []⟩ ⟨1, 2, 3, 7, [], []⟩ =
      if (5 : Int) > 7 then 1 else -1 :=
  ((C4_revision_tie_rule.1 ⟨1, 2, 3, 5, [], []⟩ ⟨1, 2, 3, 7, [], []⟩
      rfl rfl rfl).1 (by decide) (by decide) (by decide))

/-- C6: two versions with identical major, minor, patch, revision and prerelease
lists compare equal whatever their build lists are (Compare never reads Build),
and hence Equals is true. -/
theorem C6_build_irrelevant :
    ∀ a b : Version, a.Major = b.Major → a.Minor = b.Minor → a.Patch = b.Patch →
      a.Revision = b.Revision → a.Pre = b.Pre →
      a.Compare b = 0 ∧ a.Equals b = true := by
  intro a b h1 h2 h3 h4 h5
  have hc : a.Compare b = 0 := by
    rw [compare_eq_ccat]
    refine ccat_self (by rw [h1]; exact natCmp_self _) ?_
    refine ccat_self (by rw [h2]; exact natCmp_self _) ?_
    refine ccat_self (by rw [h3]; exact natCmp_self _) ?_
    exact ccat_self (by rw [h4]; exact revCmp_self _)
      (by rw [h5]; exact preCompare_self _)
  exact ⟨hc, by simp [Version.Equals, hc]⟩

/-- C6 witness: two versions identical except for their build lists compare
equal. -/
theorem C6_build_irrelevant_witness :
    Version.Compare ⟨1, 0, 0, -1, [], [chars "abc"]⟩
        ⟨1, 0, 0, -1, [], [chars "xyz", chars "001"]⟩ = 0 ∧
    Version.Equals ⟨1, 0, 0, -1, [], [chars "abc"]⟩
        ⟨1, 0, 0, -1, [], [chars "xyz", chars "001"]⟩ = true :=
  C6_build_irrelevant ⟨1, 0, 0, -1, [], [chars "abc"]⟩
    ⟨1, 0, 0, -1, [], [chars "xyz", chars "001"]⟩ rfl rfl rfl rfl rfl

/-- C7: with identical major.minor.patch.revision, an empty prerelease list beats
a non-empty one; two non-empty lists are compared by the element-wise loop; the
identifier comparator puts every numeric identifier below every alphanumeric one,
orders numerics by value and alphanumerics by lexicographic byte order; equal
lists give 0; a strict prefix is smaller. -/
theorem C7_prerelease_precedence :
    (∀ a b : Version, a.Major = b.Major → a.Minor = b.Minor → a.Patch = b.Patch →
      a.Revision = b.Revision →
      ((a.Pre = [] → b.Pre ≠ [] → a.Compare b = 1) ∧
       (a.Pre ≠ [] → b.Pre = [] → a.Compare b = -1) ∧
       (a.Pre ≠ [] → b.Pre ≠ [] → a.Compare b = comparePreLists a.Pre b.Pre))) ∧
    (∀ x y : PRVersion, x.IsNum = true → y.IsNum = false → x.Compare y = -1) ∧
    (∀ x y : PRVersion, x.IsNum = true → y.IsNum = true →
      ((x.Compare y = 0 ↔ x.VersionNum = y.VersionNum) ∧
       (x.Compare y = -1 ↔ x.VersionNum < y.VersionNum))) ∧
    (∀ x y : PRVersion, x.IsNum = false → y.IsNum = false →
      ((x.Compare y = 0 ↔ x.VersionStr = y.VersionStr) ∧
       (x.Compare y = -1 ↔ strLt x.VersionStr y.VersionStr = true))) ∧
    (∀ x y : PRVersion, ∀ xs ys : List PRVersion,
      comparePreLists (x :: xs) (y :: ys) =
        if x.Compare y = 0 then comparePreLists xs ys
        else if x.Compare y = 1 then 1 else -1) ∧
    (∀ l : List PRVersion, comparePreLists l l = 0) ∧
    (∀ l m : List PRVersion, m ≠ [] → comparePreLists l (l ++ m) = -1) := by
  refine ⟨?_, ?_, ?_, ?_, cpl_cons_cons, cpl_self, cpl_strict_self_prefix⟩
  · intro a b h1 h2 h3 h4
    have he : a.Compare b = preCompare a.Pre b.Pre :=
      compare_of_head_eq h1 h2 h3 (Or.inl h4)
    refine ⟨?_, ?_, ?_⟩
    · intro ha hb
      rw [he, ha]
      cases hq : b.Pre with
      | nil => exact absurd hq hb
      | cons c cs => exact preCompare_nil_cons c cs
    · intro ha hb
      rw [he, hb]
      cases hq : a.Pre with
      | nil => exact absurd hq ha
      | cons c cs => exact preCompare_cons_nil c cs
    · intro ha hb
      rw [he]
      cases hq : a.Pre with
      | nil => exact absurd hq ha
      | cons c cs =>
        cases hr : b.Pre with
        | nil => exact absurd hr hb
        | cons d ds => exact preCompare_cons_cons c d cs ds
  · intro x y hx hy
    simp [PRVersion.Compare, hx, hy]
  · intro x y hx hy
    exact prCompare_num_num hx hy
  · intro x y hx hy
    exact prCompare_alpha_alpha hx hy

/-- C7 witness: the head part applied at 1.0.0-alpha versus 1.0.0 (release wins),
and the numeric-below-alphanumeric rule at concrete identifiers. -/
theorem C7_prerelease_precedence_witness :
    Version.Compare ⟨1, 0, 0, -1, [], []⟩
      ⟨1, 0, 0, -1, [⟨chars "alpha", 0, false⟩], []⟩ = 1 ∧
    PRVersion.Compare ⟨[], 5, true⟩ ⟨chars "alpha", 0, false⟩ = -1 := by
  constructor
  · exact ((C7_prerelease_precedence.1 ⟨1, 0, 0, -1, [], []⟩
      ⟨1, 0, 0, -1, [⟨chars "alpha", 0, false⟩], []⟩ rfl rfl rfl rfl).1 rfl
        (by simp))
  · exact C7_prerelease_precedence.2.1 ⟨[], 5, true⟩ ⟨chars "alpha", 0, false⟩
      rfl rfl

/-- C9 counterexample: minor 18446744073709551615 = 2^64-1 is parseable, and
IncrementMinor wraps it to 0 rather than adding 1. -/
theorem C9_counterexample :
    Parse (chars "1.18446744073709551615.3") =
      some ⟨1, 18446744073709551615, 3, -1, [], []⟩ ∧
    (Version.IncrementMinor ⟨1, 18446744073709551615, 3, -1, [], []⟩).Minor = 0 ∧
    (18446744073709551615 : Nat) + 1 ≠ 0 := by
  refine ⟨by decide, by decide, by decide⟩

/-- C9 (amended): IncrementMinor adds 1 to minor modulo 2^64 (so it adds 1
whenever minor is below 2^64-1 and wraps to 0 at 2^64-1), sets patch to 0,
resets revision to 0 exactly when it was present (≥ 0) and leaves a negative
(absent) revision unchanged, leaves major, pre and build unchanged, and cannot
fail (it is a total function); Parse "1.2.3.4" followed by IncrementMinor gives
the same Version as Parse "1.3.0.0". -/
theorem C9_increment_minor :
    (∀ v : Version,
      (v.IncrementMinor).Minor = (v.Minor + 1) % 2 ^ 64 ∧
      (v.Minor < 2 ^ 64 - 1 → (v.IncrementMinor).Minor = v.Minor + 1) ∧
      (v.IncrementMinor).Patch = 0 ∧
      (0 ≤ v.Revision → (v.IncrementMinor).Revision = 0) ∧
      (v.Revision < 0 → (v.IncrementMinor).Revision = v.Revision) ∧
      (v.IncrementMinor).Major = v.Major ∧
      (v.IncrementMinor).Pre = v.Pre ∧
      (v.IncrementMinor).Build = v.Build) ∧
    Parse (chars "1.2.3.4") = some ⟨1, 2, 3, 4, [], []⟩ ∧
    Version.IncrementMinor ⟨1, 2, 3, 4, [], []⟩ = ⟨1, 3, 0, 0, [], []⟩ ∧
    Parse (chars "1.3.0.0") = some ⟨1, 3, 0, 0, [], []⟩ := by
  refine ⟨?_, by decide, by decide, by decide⟩
  intro v
  refine ⟨rfl, ?_, rfl, ?_, ?_, rfl, rfl, rfl⟩
  · intro h
    show (v.Minor + 1) % 2 ^ 64 = v.Minor + 1
    exact Nat.mod_eq_of_lt (by omega)
  · intro h
    show (if 0 ≤ v.Revision then (0 : Int) else v.Revision) = 0
    rw [if_pos h]
  · intro h
    show (if 0 ≤ v.Revision then (0 : Int) else v.Revision) = v.Revision
    rw [if_neg (by omega)]

/-- C9 witness: the universal part applied at a concrete version. -/
theorem C9_increment_minor_witness :
    (Version.IncrementMinor ⟨9, 5, 7, 2, [], []⟩).Minor = 5 + 1 :=
  ((C9_increment_minor.1 ⟨9, 5, 7, 2, [], []⟩).2.1 (by decide))

/-! Validity invariants established by the parser. -/

theorem parseUint64_inv {s : List Char} {n : Nat} (h : parseUint64 s = some n) :
    n = digitsToNat s ∧ n < 2 ^ 64 ∧ s ≠ [] ∧ containsOnly s numbers = true := by
  unfold parseUint64 at h
  split_ifs at h with h1 h2 h3
  all_goals try exact Option.noConfusion h
  injection h with h'
  subst h'
  refine ⟨rfl, h3, ?_, h2⟩
  intro hq
  rw [hq] at h1
  exact h1 rfl

theorem parseInt64Digits_inv {s : List Char} {r : Int}
    (h : parseInt64Digits s = some r) :
    r = Int.ofNat (digitsToNat s) ∧ 0 ≤ r ∧ r ≤ 2 ^ 63 - 1 ∧ s ≠ [] ∧
      containsOnly s numbers = true := by
  unfold parseInt64Digits at h
  split_ifs at h with h1 h2 h3
  all_goals try exact Option.noConfusion h
  injection h with h'
  subst h'
  have e : Int.ofNat (digitsToNat s) = (digitsToNat s : Int) := rfl
  refine ⟨rfl, by rw [e]; omega, by rw [e]; omega, ?_, h2⟩
  intro hq
  rw [hq] at h1
  exact h1 rfl

theorem NewPRVersion_valid {s : List Char} {p : PRVersion}
    (h : NewPRVersion s = some p) : ValidPR p := by
  unfold NewPRVersion at h
  split_ifs at h with h1 h2 h3 h4
  all_goals try exact Option.noConfusion h
  · cases hu : parseUint64 s with
    | none => rw [hu] at h; exact Option.noConfusion h
    | some num =>
      rw [hu] at h
      injection h with h'
      subst h'
      left
      exact ⟨rfl, rfl, (parseUint64_inv hu).2.1⟩
  · injection h with h'
    subst h'
    right
    refine ⟨rfl, rfl, ?_, h4, ?_⟩
    · intro hq
      have hq' : s = [] := hq
      rw [hq'] at h1
      exact h1 rfl
    · cases hq : containsOnly s numbers
      · rfl
      · exact absurd hq h2

theorem preFromSegs_valid {segs : List (List Char)} {l : List PRVersion}
    (h : preFromSegs segs = some l) : ∀ p ∈ l, ValidPR p := by
  induction segs generalizing l with
  | nil =>
    unfold preFromSegs at h
    injection h with h'
    subst h'
    intro p hp
    exact absurd hp (List.not_mem_nil p)
  | cons s rest ih =>
    unfold preFromSegs at h
    cases hn : NewPRVersion s with
    | none => rw [hn] at h; exact Option.noConfusion h
    | some q =>
      rw [hn] at h
      cases hr : preFromSegs rest with
      | none => rw [hr] at h; exact Option.noConfusion h
      | some qs =>
        rw [hr] at h
        injection h with h'
        subst h'
        intro p hp
        rcases List.mem_cons.1 hp with rfl | hp'
        · exact NewPRVersion_valid hn
        · exact ih hr p hp'

theorem buildFromSegs_valid {segs l : List (List Char)}
    (h : buildFromSegs segs = some l) :
    ∀ b ∈ l, b ≠ [] ∧ containsOnly b alphanum = true := by
  induction segs generalizing l with
  | nil =>
    unfold buildFromSegs at h
    injection h with h'
    subst h'
    intro b hb
    exact absurd hb (List.not_mem_nil b)
  | cons s rest ih =>
    unfold buildFromSegs at h
    split_ifs at h with h1 h2
    all_goals try exact Option.noConfusion h
    cases hr : buildFromSegs rest with
    | none => rw [hr] at h; exact Option.noConfusion h
    | some bs =>
      rw [hr] at h
      injection h with h'
      subst h'
      intro b hb
      rcases List.mem_cons.1 hb with rfl | hb'
      · constructor
        · intro hq
          rw [hq] at h1
          exact h1 rfl
        · cases hq : containsOnly b alphanum
          · rw [hq] at h2; exact absurd rfl h2
          · rfl
      · exact ih hr b hb'

theorem Parse_valid {s : List Char} {v : Version} (h : Parse s = some v) :
    ValidVersion v := by
  unfold Parse at h
  split_ifs at h with h0
  all_goals try exact Option.noConfusion h
  split at h
  · exact Option.noConfusion h
  next f hm =>
  unfold buildVersion at h
  split at h
  · exact Option.noConfusion h
  next major hma =>
  split at h
  · exact Option.noConfusion h
  next minor hmi =>
  split at h
  · exact Option.noConfusion h
  next patch hpa =>
  split at h
  · exact Option.noConfusion h
  next rev hrv =>
  split at h
  · exact Option.noConfusion h
  next pre hpr =>
  split at h
  · exact Option.noConfusion h
  next bld hbl =>
  injection h with h'
  subst h'
  refine ⟨(parseUint64_inv hma).2.1, (parseUint64_inv hmi).2.1,
    (parseUint64_inv hpa).2.1, ?_, ?_, ?_⟩
  · split at hrv
    · injection hrv with h''
      left
      show rev = -1
      omega
    · have := parseInt64Digits_inv hrv
      right
      exact ⟨this.2.1, this.2.2.1⟩
  · split at hpr
    · injection hpr with h''
      subst h''
      intro p hp
      exact absurd hp (List.not_mem_nil p)
    · exact preFromSegs_valid hpr
  · split at hbl
    · injection hbl with h''
      subst h''
      intro b hb
      exact absurd hb (List.not_mem_nil b)
    · exact buildFromSegs_valid hbl

theorem validatePre_none {l : List PRVersion} (h : ∀ p ∈ l, ValidPR p) :
    validatePre l = none := by
  induction l with
  | nil => rfl
  | cons p rest ih =>
    have hp := h p (List.mem_cons_self p rest)
    have hr : validatePre rest = none :=
      ih (fun q hq => h q (List.mem_cons_of_mem p hq))
    unfold validatePre
    rcases hp with ⟨hnum, _, _⟩ | ⟨hnum, _, hne, hco, _⟩
    · simp [hnum, hr]
    · have hlen : ¬ p.VersionStr.length = 0 := by
        simpa [List.length_eq_zero] using hne
      simp [hnum, hlen, hco, hr]

theorem validateBuild_none {l : List (List Char)}
    (h : ∀ b ∈ l, b ≠ [] ∧ containsOnly b alphanum = true) :
    validateBuild l = none := by
  induction l with
  | nil => rfl
  | cons b rest ih =>
    have hb := h b (List.mem_cons_self b rest)
    have hr : validateBuild rest = none :=
      ih (fun q hq => h q (List.mem_cons_of_mem b hq))
    unfold validateBuild
    rw [if_neg (by simpa using hb.1), if_neg (by simp [hb.2]), hr]

/-- C10: every Version produced by Parse passes the defensive Validate check:
its prerelease identifiers are non-empty with characters in the allowed
alphanumeric-hyphen set, and so are its build segments, so Validate reports no
error. -/
theorem C10_parse_output_validates :
    ∀ (s : List Char) (v : Version), Parse s = some v → v.Validate = none := by
  intro s v h
  have hv := Parse_valid h
  unfold Version.Validate
  rw [validatePre_none hv.2.2.2.2.1]
  exact validateBuild_none hv.2.2.2.2.2

/-- C10 witness: the theorem applied to a parse with both prerelease and build
segments present. -/
theorem C10_parse_output_validates_witness :
    Version.Validate ⟨1, 2, 3, -1, [⟨chars "alpha", 0, false⟩, ⟨[], 1, true⟩],
      [chars "001"]⟩ = none :=
  C10_parse_output_validates (chars "1.2.3-alpha.1+001")
    ⟨1, 2, 3, -1, [⟨chars "alpha", 0, false⟩, ⟨[], 1, true⟩], [chars "001"]⟩
    (by decide)

/-! Character-set and splitting infrastructure for the round-trip and tolerant
parsing claims. -/

theorem contains_iff {l : List Char} {c : Char} : l.contains c = true ↔ c ∈ l :=
  List.elem_iff

theorem containsOnly_iff {s set : List Char} :
    containsOnly s set = true ↔ ∀ c ∈ s, c ∈ set := by
  unfold containsOnly
  rw [List.all_eq_true]
  constructor
  · intro h c hc
    exact contains_iff.1 (h c hc)
  · intro h c hc
    exact contains_iff.2 (h c hc)

theorem not_mem_of_containsOnly {s set : List Char} {c : Char}
    (h : containsOnly s set = true) (hc : c ∉ set) : c ∉ s := by
  intro hmem
  exact hc (containsOnly_iff.1 h c hmem)

theorem mem_alphanum_iff {c : Char} : c ∈ alphanum ↔ c ∈ alphas ∨ c ∈ numbers :=
  List.mem_append

theorem containsOnly_of_sub {s set : List Char} {set' : List Char}
    (h : containsOnly s set = true) (hsub : ∀ c ∈ set, c ∈ set') :
    containsOnly s set' = true :=
  containsOnly_iff.2 (fun c hc => hsub c (containsOnly_iff.1 h c hc))

theorem splitAtFirst_not_mem {c : Char} {l : List Char} (h : c ∉ l) :
    splitAtFirst c l = (l, none) := by
  induction l with
  | nil => rfl
  | cons x xs ih =>
    have hx : ¬ x = c := by
      intro hq
      rw [← hq] at h
      exact h (List.mem_cons_self x xs)
    have hxs : c ∉ xs := fun hq => h (List.mem_cons_of_mem x hq)
    unfold splitAtFirst
    rw [if_neg hx, ih hxs]

theorem splitAtFirst_append {c : Char} {a b : List Char} (h : c ∉ a) :
    splitAtFirst c (a ++ c :: b) = (a, some b) := by
  induction a with
  | nil => simp [splitAtFirst]
  | cons x xs ih =>
    have hx : ¬ x = c := by
      intro hq
      rw [← hq] at h
      exact h (List.mem_cons_self x xs)
    have hxs : c ∉ xs := fun hq => h (List.mem_cons_of_mem x hq)
    simp only [List.cons_append]
    unfold splitAtFirst
    rw [if_neg hx, ih hxs]

theorem splitOnDot_ne_nil (s : List Char) : splitOnDot s ≠ [] := by
  cases s with
  | nil => simp [splitOnDot]
  | cons c rest =>
    unfold splitOnDot
    cases h : splitOnDot rest with
    | nil => simp
    | cons g gs => split_ifs <;> simp

theorem splitOnDot_no_dot {a : List Char} (h : '.' ∉ a) : splitOnDot a = [a] := by
  induction a with
  | nil => rfl
  | cons c rest ih =>
    have hc : ¬ c = '.' := by
      intro hq
      rw [← hq] at h
      exact h (List.mem_cons_self c rest)
    have hrest : '.' ∉ rest := fun hq => h (List.mem_cons_of_mem c hq)
    unfold splitOnDot
    rw [ih hrest]
    simp [hc]

theorem splitOnDot_append {a r : List Char} (h : '.' ∉ a) :
    splitOnDot (a ++ '.' :: r) = a :: splitOnDot r := by
  induction a with
  | nil =>
    simp only [List.nil_append]
    rw [splitOnDot]
    cases hq : splitOnDot r with
    | nil => exact absurd hq (splitOnDot_ne_nil r)
    | cons g gs => simp
  | cons c rest ih =>
    have hc : ¬ c = '.' := by
      intro hq
      rw [← hq] at h
      exact h (List.mem_cons_self c rest)
    have hrest : '.' ∉ rest := fun hq => h (List.mem_cons_of_mem c hq)
    simp only [List.cons_append]
    rw [splitOnDot]
    rw [ih hrest]
    simp [hc]

theorem dotJoin_cons (s : List Char) (t : List Char) (ts : List (List Char)) :
    dotJoin (s :: t :: ts) = s ++ '.' :: dotJoin (t :: ts) := rfl

theorem splitOnDot_dotJoin {segs : List (List Char)} (hne : segs ≠ [])
    (h : ∀ seg ∈ segs, '.' ∉ seg) : splitOnDot (dotJoin segs) = segs := by
  induction segs with
  | nil => exact absurd rfl hne
  | cons s rest ih =>
    cases rest with
    | nil => exact splitOnDot_no_dot (h s (List.mem_cons_self s []))
    | cons t ts =>
      rw [dotJoin_cons, splitOnDot_append (h s (List.mem_cons_self s (t :: ts)))]
      rw [ih (by simp) (fun seg hs => h seg (List.mem_cons_of_mem s hs))]

theorem not_mem_dotJoin {c : Char} {segs : List (List Char)} (hc : c ≠ '.')
    (h : ∀ seg ∈ segs, c ∉ seg) : c ∉ dotJoin segs := by
  induction segs with
  | nil => simp [dotJoin]
  | cons s rest ih =>
    cases rest with
    | nil => exact h s (List.mem_cons_self s [])
    | cons t ts =>
      rw [dotJoin_cons]
      intro hmem
      rcases List.mem_append.1 hmem with hmem | hmem
      · exact h s (List.mem_cons_self s (t :: ts)) hmem
      · rcases List.mem_cons.1 hmem with rfl | hmem
        · exact hc rfl
        · exact ih (fun seg hs => h seg (List.mem_cons_of_mem s hs)) hmem

/-! Decimal rendering facts. -/

theorem natDigitsAux_eq (f g n : Nat) (hf : n < f) (hg : n < g) :
    natDigitsAux f n = natDigitsAux g n := by
  induction f generalizing g n with
  | zero => omega
  | succ f ih =>
    cases g with
    | zero => omega
    | succ g =>
      unfold natDigitsAux
      by_cases h : n < 10
      · simp [h]
      · simp only [if_neg h]
        rw [ih g (n / 10) (by omega) (by omega)]

theorem natDigits_unfold (n : Nat) :
    natDigits n =
      if n < 10 then [digitChar n]
      else natDigits (n / 10) ++ [digitChar (n % 10)] := by
  show natDigitsAux (n + 1) n = _
  unfold natDigitsAux
  by_cases h : n < 10
  · simp [h]
  · simp only [if_neg h]
    show natDigitsAux n (n / 10) ++ _ = natDigitsAux (n / 10 + 1) (n / 10) ++ _
    rw [natDigitsAux_eq n (n / 10 + 1) (n / 10) (by omega) (by omega)]

theorem digitChar_mem_numbers {d : Nat} (h : d < 10) : digitChar d ∈ numbers := by
  interval_cases d <;> decide

theorem digitVal_digitChar {d : Nat} (h : d < 10) : digitVal (digitChar d) = d := by
  interval_cases d <;> decide

theorem digitChar_ne_zero {d : Nat} (h1 : d < 10) (h2 : d ≠ 0) :
    digitChar d ≠ '0' := by
  interval_cases d <;> first | omega | decide

theorem natDigits_ne_nil (n : Nat) : natDigits n ≠ [] := by
  rw [natDigits_unfold]
  split_ifs <;> simp

theorem natDigits_digits (n : Nat) : containsOnly (natDigits n) numbers = true := by
  induction n using Nat.strong_induction_on with
  | _ n ih =>
    rw [natDigits_unfold]
    split_ifs with h
    · rw [containsOnly_iff]
      intro c hc
      rw [List.mem_singleton] at hc
      subst hc
      exact digitChar_mem_numbers h
    · rw [containsOnly_iff]
      intro c hc
      rcases List.mem_append.1 hc with hc | hc
      · exact containsOnly_iff.1 (ih (n / 10) (by omega)) c hc
      · rw [List.mem_singleton] at hc
        subst hc
        exact digitChar_mem_numbers (by omega)

theorem digitsToNat_append_singleton (a : List Char) (c : Char) :
    digitsToNat (a ++ [c]) = digitsToNat a * 10 + digitVal c := by
  unfold digitsToNat
  rw [List.foldl_append]
  rfl

theorem digitsToNat_natDigits (n : Nat) : digitsToNat (natDigits n) = n := by
  induction n using Nat.strong_induction_on with
  | _ n ih =>
    rw [natDigits_unfold]
    split_ifs with h
    · show 0 * 10 + digitVal (digitChar n) = n
      rw [digitVal_digitChar h]
      omega
    · rw [digitsToNat_append_singleton, ih (n / 10) (by omega),
        digitVal_digitChar (by omega)]
      omega

theorem head_append_of_ne_nil {a b : List Char} (h : a ≠ []) :
    (a ++ b).head? = a.head? := by
  cases a with
  | nil => exact absurd rfl h
  | cons x xs => rfl

theorem natDigits_head_ne_zero {n : Nat} (h : n ≠ 0) :
    (natDigits n).head? ≠ some '0' := by
  induction n using Nat.strong_induction_on with
  | _ n ih =>
    rw [natDigits_unfold]
    split_ifs with hq
    · intro hc
      rw [List.head?_cons, Option.some.injEq] at hc
      exact digitChar_ne_zero hq h hc
    · rw [head_append_of_ne_nil (natDigits_ne_nil (n / 10))]
      exact ih (n / 10) (by omega) (by omega)

theorem natDigits_no_leading_zeroes (n : Nat) :
    hasLeadingZeroes (natDigits n) = false := by
  by_cases h : n < 10
  · unfold hasLeadingZeroes
    rw [natDigits_unfold, if_pos h]
    simp
  · unfold hasLeadingZeroes
    rw [Bool.and_eq_false_iff]
    right
    have hnz := natDigits_head_ne_zero (show n ≠ 0 by omega)
    simpa using hnz

theorem parseUint64_natDigits {n : Nat} (h : n < 2 ^ 64) :
    parseUint64 (natDigits n) = some n := by
  unfold parseUint64
  rw [if_neg (by simpa [List.isEmpty_iff] using natDigits_ne_nil n)]
  rw [if_pos (natDigits_digits n)]
  rw [digitsToNat_natDigits]
  rw [if_pos h]

theorem parseInt64Digits_natDigits {r : Int} (h0 : 0 ≤ r) (h1 : r ≤ 2 ^ 63 - 1) :
    parseInt64Digits (natDigits r.toNat) = some r := by
  unfold parseInt64Digits
  rw [if_neg (by simpa [List.isEmpty_iff] using natDigits_ne_nil r.toNat)]
  rw [if_pos (natDigits_digits r.toNat)]
  rw [digitsToNat_natDigits]
  rw [if_pos (by omega)]
  rw [Option.some.injEq]
  show ((r.toNat : Nat) : Int) = r
  omega

/-! Facts about the characters of rendered versions. -/

theorem containsOnly_append {a b set : List Char} (ha : containsOnly a set = true)
    (hb : containsOnly b set = true) : containsOnly (a ++ b) set = true := by
  rw [containsOnly_iff]
  intro c hc
  rcases List.mem_append.1 hc with h | h
  · exact containsOnly_iff.1 ha c h
  · exact containsOnly_iff.1 hb c h

theorem containsOnly_cons_of {c : Char} {rest set : List Char} (hc : c ∈ set)
    (h : containsOnly rest set = true) : containsOnly (c :: rest) set = true := by
  rw [containsOnly_iff]
  intro x hx
  rcases List.mem_cons.1 hx with rfl | hx
  · exact hc
  · exact containsOnly_iff.1 h x hx

theorem containsOnly_nil {set : List Char} : containsOnly [] set = true := rfl

theorem numbers_sub_alphanum : ∀ c ∈ numbers, c ∈ alphanum := by decide

theorem containsOnly_dotJoin {segs : List (List Char)} {set : List Char}
    (hdot : '.' ∈ set) (h : ∀ seg ∈ segs, containsOnly seg set = true) :
    containsOnly (dotJoin segs) set = true := by
  induction segs with
  | nil => exact containsOnly_nil
  | cons s rest ih =>
    cases rest with
    | nil => exact h s (List.mem_cons_self s [])
    | cons t ts =>
      rw [dotJoin_cons]
      refine containsOnly_append (h s (List.mem_cons_self s (t :: ts))) ?_
      exact containsOnly_cons_of hdot
        (ih (fun seg hs => h seg (List.mem_cons_of_mem s hs)))

theorem mem_natDigits_numbers {n : Nat} {c : Char} (h : c ∈ natDigits n) :
    c ∈ numbers :=
  containsOnly_iff.1 (natDigits_digits n) c h

theorem natDigits_dotnumbers (n : Nat) :
    containsOnly (natDigits n) ('.' :: numbers) = true :=
  containsOnly_of_sub (natDigits_digits n) (fun c hc => List.mem_cons_of_mem '.' hc)

theorem coreRender_chars (v : Version) :
    containsOnly (coreRender v) ('.' :: numbers) = true := by
  unfold coreRender
  have hdot : ('.' : Char) ∈ '.' :: numbers := List.mem_cons_self _ _
  refine containsOnly_append (containsOnly_append (containsOnly_append
    (natDigits_dotnumbers _)
    (containsOnly_cons_of hdot (natDigits_dotnumbers _)))
    (containsOnly_cons_of hdot (natDigits_dotnumbers _))) ?_
  split_ifs with hrev
  · exact containsOnly_cons_of hdot (natDigits_dotnumbers _)
  · exact containsOnly_nil

theorem pr_string_facts {p : PRVersion} (hp : ValidPR p) :
    PRVersion.String p ≠ [] ∧ containsOnly (PRVersion.String p) alphanum = true := by
  rcases hp with ⟨hnum, hstr, hlt⟩ | ⟨hnum, hzero, hne, hco, hnall⟩
  · have hs : PRVersion.String p = natDigits p.VersionNum := by
      unfold PRVersion.String
      rw [hnum]
      rfl
    rw [hs]
    exact ⟨natDigits_ne_nil _,
      containsOnly_of_sub (natDigits_digits _) numbers_sub_alphanum⟩
  · have hs : PRVersion.String p = p.VersionStr := by
      unfold PRVersion.String
      rw [hnum]
      rfl
    rw [hs]
    exact ⟨hne, hco⟩

theorem preRender_chars {pre : List PRVersion} (h : ∀ p ∈ pre, ValidPR p) :
    containsOnly (preRender pre) ('-' :: '.' :: alphanum) = true := by
  cases pre with
  | nil => exact containsOnly_nil
  | cons p ps =>
    show containsOnly ('-' :: dotJoin ((p :: ps).map PRVersion.String)) _ = true
    refine containsOnly_cons_of (List.mem_cons_self _ _) ?_
    refine containsOnly_of_sub (show containsOnly _ ('.' :: alphanum) = true
      from ?_) (fun c hc => List.mem_cons_of_mem '-' hc)
    refine containsOnly_dotJoin (List.mem_cons_self _ _) ?_
    intro seg hs
    rcases List.mem_map.1 hs with ⟨q, hq, rfl⟩
    exact containsOnly_of_sub (pr_string_facts (h q hq)).2
      (fun c hc => List.mem_cons_of_mem '.' hc)

theorem buildRender_chars {bld : List (List Char)}
    (h : ∀ b ∈ bld, b ≠ [] ∧ containsOnly b alphanum = true) :
    containsOnly (buildRender bld) ('+' :: '.' :: alphanum) = true := by
  cases bld with
  | nil => exact containsOnly_nil
  | cons b bs =>
    show containsOnly ('+' :: dotJoin (b :: bs)) _ = true
    refine containsOnly_cons_of (List.mem_cons_self _ _) ?_
    refine containsOnly_of_sub (show containsOnly _ ('.' :: alphanum) = true
      from ?_) (fun c hc => List.mem_cons_of_mem '+' hc)
    refine containsOnly_dotJoin (List.mem_cons_self _ _) ?_
    intro seg hs
    exact containsOnly_of_sub (h seg hs).2 (fun c hc => List.mem_cons_of_mem '.' hc)

/-! The rendered string re-matches the strict grammar with the expected fields. -/

theorem isPreSegAlt_of_alpha {s : List Char} (h1 : containsOnly s alphanum = true)
    (h2 : containsOnly s numbers = false) : isPreSegAlt s = true := by
  induction s with
  | nil => simp [containsOnly] at h2
  | cons c rest ih =>
    have h1c : c ∈ alphanum :=
      containsOnly_iff.1 h1 c (List.mem_cons_self c rest)
    have h1' : containsOnly rest alphanum = true :=
      containsOnly_iff.2 (fun x hx =>
        containsOnly_iff.1 h1 x (List.mem_cons_of_mem c hx))
    cases hpc : numbers.contains c with
    | true =>
      have hpc' : (fun x => numbers.contains x) c = true := hpc
      have h2' : containsOnly rest numbers = false := by
        cases hq : containsOnly rest numbers
        · rfl
        · exfalso
          have hall : containsOnly (c :: rest) numbers = true := by
            rw [containsOnly_iff]
            intro x hx
            rcases List.mem_cons.1 hx with rfl | hx
            · exact contains_iff.1 hpc
            · exact containsOnly_iff.1 hq x hx
          rw [hall] at h2
          exact Bool.noConfusion h2
      have hrec := ih h1' h2'
      rw [isPreSegAlt] at hrec ⊢
      rw [List.dropWhile_cons, if_pos hpc']
      exact hrec
    | false =>
      have hpc' : ¬ ((fun x => numbers.contains x) c = true) := by
        intro hq
        have hq' : numbers.contains c = true := hq
        rw [hpc] at hq'
        exact Bool.noConfusion hq'
      rw [isPreSegAlt, List.dropWhile_cons, if_neg hpc']
      have hca : c ∈ alphas := by
        rcases mem_alphanum_iff.1 h1c with h | h
        · exact h
        · rw [contains_iff.2 h] at hpc
          exact absurd hpc (by simp)
      show (alphas.contains c && containsOnly rest alphanum) = true
      rw [contains_iff.2 hca, h1']
      rfl

theorem isPreSegment_render {p : PRVersion} (hp : ValidPR p) :
    isPreSegment (PRVersion.String p) = true := by
  rcases hp with ⟨hnum, hstr, hlt⟩ | ⟨hnum, hzero, hne, hco, hnall⟩
  · have hs : PRVersion.String p = natDigits p.VersionNum := by
      unfold PRVersion.String
      rw [hnum]
      rfl
    rw [hs]
    unfold isPreSegment
    rw [Bool.or_eq_true]
    left
    rw [natDigits_digits, natDigits_no_leading_zeroes]
    have : (natDigits p.VersionNum).isEmpty = false := by
      simpa [List.isEmpty_iff] using natDigits_ne_nil p.VersionNum
    rw [this]
    rfl
  · have hs : PRVersion.String p = p.VersionStr := by
      unfold PRVersion.String
      rw [hnum]
      rfl
    rw [hs]
    unfold isPreSegment
    rw [Bool.or_eq_true]
    right
    exact isPreSegAlt_of_alpha hco hnall

theorem isBuildSegment_render {b : List Char} (hb : b ≠ [])
    (hco : containsOnly b alphanum = true) : isBuildSegment b = true := by
  unfold isBuildSegment
  rw [hco]
  have : b.isEmpty = false := by simpa [List.isEmpty_iff] using hb
  rw [this]
  rfl

theorem isNumField_natDigits (n : Nat) : isNumField (natDigits n) = true := by
  unfold isNumField
  rw [natDigits_digits, natDigits_no_leading_zeroes]
  have : (natDigits n).isEmpty = false := by
    simpa [List.isEmpty_iff] using natDigits_ne_nil n
  rw [this]
  rfl

theorem NewPRVersion_render {p : PRVersion} (hp : ValidPR p) :
    NewPRVersion (PRVersion.String p) = some p := by
  rcases hp with ⟨hnum, hstr, hlt⟩ | ⟨hnum, hzero, hne, hco, hnall⟩
  · have hs : PRVersion.String p = natDigits p.VersionNum := by
      unfold PRVersion.String
      rw [hnum]
      rfl
    rw [hs]
    unfold NewPRVersion
    rw [if_neg (by simp [List.length_eq_zero, natDigits_ne_nil])]
    rw [if_pos (natDigits_digits _)]
    rw [if_neg (by simp [natDigits_no_leading_zeroes])]
    rw [parseUint64_natDigits hlt]
    show some ⟨[], p.VersionNum, true⟩ = some p
    rw [← hstr, ← hnum]
  · have hs : PRVersion.String p = p.VersionStr := by
      unfold PRVersion.String
      rw [hnum]
      rfl
    rw [hs]
    unfold NewPRVersion
    rw [if_neg (by simp [List.length_eq_zero, hne])]
    rw [if_neg (by simp [hnall])]
    rw [if_pos hco]
    show some ⟨p.VersionStr, 0, false⟩ = some p
    rw [← hzero, ← hnum]

theorem preFromSegs_render {pre : List PRVersion} (h : ∀ p ∈ pre, ValidPR p) :
    preFromSegs (pre.map PRVersion.String) = some pre := by
  induction pre with
  | nil => rfl
  | cons p rest ih =>
    have h1 := NewPRVersion_render (h p (List.mem_cons_self p rest))
    have h2 := ih (fun q hq => h q (List.mem_cons_of_mem p hq))
    rw [List.map_cons, preFromSegs, h1, h2]

theorem buildFromSegs_render {bld : List (List Char)}
    (h : ∀ b ∈ bld, b ≠ [] ∧ containsOnly b alphanum = true) :
    buildFromSegs bld = some bld := by
  induction bld with
  | nil => rfl
  | cons b rest ih =>
    have hb := h b (List.mem_cons_self b rest)
    have h2 := ih (fun q hq => h q (List.mem_cons_of_mem b hq))
    rw [buildFromSegs]
    rw [if_neg (by simp [List.length_eq_zero, hb.1])]
    rw [if_neg (by simp [hb.2])]
    rw [h2]

theorem if_true_and_true {α : Type} (a b : α) :
    (if (true && true) = true then a else b) = a := rfl

theorem matchStrict_render {v : Version} (hv : ValidVersion v) :
    matchStrict v.String = some
      ⟨natDigits v.Major, natDigits v.Minor, natDigits v.Patch,
        (if 0 ≤ v.Revision then some (natDigits v.Revision.toNat) else none),
        (match v.Pre with
         | [] => none
         | _ :: _ => some (dotJoin (v.Pre.map PRVersion.String))),
        (match v.Build with
         | [] => none
         | _ :: _ => some (dotJoin v.Build))⟩ := by
  obtain ⟨hM, hm, hp, hrev, hpre, hbld⟩ := hv
  have hplus_core : '+' ∉ coreRender v :=
    not_mem_of_containsOnly (coreRender_chars v) (by decide)
  have hminus_core : '-' ∉ coreRender v :=
    not_mem_of_containsOnly (coreRender_chars v) (by decide)
  have hplus_pre : '+' ∉ preRender v.Pre :=
    not_mem_of_containsOnly (preRender_chars hpre) (by decide)
  have hdM : '.' ∉ natDigits v.Major :=
    not_mem_of_containsOnly (natDigits_digits _) (by decide)
  have hdm : '.' ∉ natDigits v.Minor :=
    not_mem_of_containsOnly (natDigits_digits _) (by decide)
  have hdp : '.' ∉ natDigits v.Patch :=
    not_mem_of_containsOnly (natDigits_digits _) (by decide)
  have hdr : '.' ∉ natDigits v.Revision.toNat :=
    not_mem_of_containsOnly (natDigits_digits _) (by decide)
  have hcore : splitOnDot (coreRender v) =
      if 0 ≤ v.Revision then
        [natDigits v.Major, natDigits v.Minor, natDigits v.Patch,
          natDigits v.Revision.toNat]
      else [natDigits v.Major, natDigits v.Minor, natDigits v.Patch] := by
    unfold coreRender
    split_ifs with hr
    · simp only [List.append_assoc, List.cons_append]
      rw [splitOnDot_append hdM, splitOnDot_append hdm, splitOnDot_append hdp,
        splitOnDot_no_dot hdr]
    · simp only [List.append_nil, List.append_assoc, List.cons_append]
      rw [splitOnDot_append hdM, splitOnDot_append hdm, splitOnDot_no_dot hdp]
  cases hP : v.Pre with
  | nil =>
    cases hB : v.Build with
    | nil =>
      have hs : Version.String v = coreRender v := by
        show coreRender v ++ preRender v.Pre ++ buildRender v.Build = _
        rw [hP, hB]
        show coreRender v ++ ([] : List Char) ++ ([] : List Char) = _
        rw [List.append_nil, List.append_nil]
      rw [hs]
      unfold matchStrict
      rw [splitAtFirst_not_mem hplus_core]
      simp only [splitAtFirst_not_mem hminus_core, hcore, if_true_and_true]
      split_ifs with hr <;> simp [isNumField_natDigits]
    | cons b bs =>
      rw [hB] at hbld
      have hdots : ∀ seg ∈ (b :: bs), '.' ∉ seg := fun seg hq =>
        not_mem_of_containsOnly (hbld seg hq).2 (by decide)
      have hsplitB : splitOnDot (dotJoin (b :: bs)) = b :: bs :=
        splitOnDot_dotJoin (by simp) hdots
      have hallB : (b :: bs).all isBuildSegment = true :=
        List.all_eq_true.2 (fun seg hq =>
          isBuildSegment_render (hbld seg hq).1 (hbld seg hq).2)
      have hs : Version.String v = coreRender v ++ ('+' :: dotJoin (b :: bs)) := by
        show coreRender v ++ preRender v.Pre ++ buildRender v.Build = _
        rw [hP, hB]
        show coreRender v ++ ([] : List Char) ++ ('+' :: dotJoin (b :: bs)) = _
        rw [List.append_nil]
      rw [hs]
      unfold matchStrict
      rw [splitAtFirst_append hplus_core]
      simp only [splitAtFirst_not_mem hminus_core, hcore, hsplitB, hallB,
        if_true_and_true]
      split_ifs with hr <;> simp [isNumField_natDigits]
  | cons q qs =>
    rw [hP] at hpre hplus_pre
    have hdots : ∀ seg ∈ (q :: qs).map PRVersion.String, '.' ∉ seg := by
      intro seg hq
      rcases List.mem_map.1 hq with ⟨w, hw, rfl⟩
      exact not_mem_of_containsOnly (pr_string_facts (hpre w hw)).2 (by decide)
    have hsplitP :
        splitOnDot (dotJoin ((q :: qs).map PRVersion.String)) =
          (q :: qs).map PRVersion.String :=
      splitOnDot_dotJoin (by simp) hdots
    have hallP : ((q :: qs).map PRVersion.String).all isPreSegment = true := by
      rw [List.all_eq_true]
      intro seg hq
      rcases List.mem_map.1 hq with ⟨w, hw, rfl⟩
      exact isPreSegment_render (hpre w hw)
    have hplus_prefix :
        '+' ∉ coreRender v ++ '-' :: dotJoin ((q :: qs).map PRVersion.String) := by
      intro hmem
      rcases List.mem_append.1 hmem with hmem | hmem
      · exact hplus_core hmem
      · exact hplus_pre hmem
    cases hB : v.Build with
    | nil =>
      have hs : Version.String v =
          coreRender v ++ '-' :: dotJoin ((q :: qs).map PRVersion.String) := by
        show coreRender v ++ preRender v.Pre ++ buildRender v.Build = _
        rw [hP, hB]
        show coreRender v ++ ('-' :: dotJoin ((q :: qs).map PRVersion.String))
          ++ ([] : List Char) = _
        rw [List.append_nil]
      rw [hs]
      unfold matchStrict
      rw [splitAtFirst_not_mem hplus_prefix]
      simp only [splitAtFirst_append hminus_core, hcore, hsplitP, hallP,
        if_true_and_true]
      split_ifs with hr <;> simp [isNumField_natDigits]
    | cons b bs =>
      rw [hB] at hbld
      have hdotsB : ∀ seg ∈ (b :: bs), '.' ∉ seg := fun seg hq =>
        not_mem_of_containsOnly (hbld seg hq).2 (by decide)
      have hsplitB : splitOnDot (dotJoin (b :: bs)) = b :: bs :=
        splitOnDot_dotJoin (by simp) hdotsB
      have hallB : (b :: bs).all isBuildSegment = true :=
        List.all_eq_true.2 (fun seg hq =>
          isBuildSegment_render (hbld seg hq).1 (hbld seg hq).2)
      have hs : Version.String v =
          (coreRender v ++ '-' :: dotJoin ((q :: qs).map PRVersion.String))
            ++ ('+' :: dotJoin (b :: bs)) := by
        show coreRender v ++ preRender v.Pre ++ buildRender v.Build = _
        rw [hP, hB]
        rfl
      rw [hs]
      unfold matchStrict
      rw [splitAtFirst_append hplus_prefix]
      simp only [splitAtFirst_append hminus_core, hcore, hsplitP, hallP, hsplitB,
        hallB, if_true_and_true]
      split_ifs with hr <;> simp [isNumField_natDigits]

theorem vString_length_ne (v : Version) : ¬ (Version.String v).length = 0 := by
  intro h
  rw [List.length_eq_zero] at h
  have h1 := (List.append_eq_nil.1 h).1
  have h2 := (List.append_eq_nil.1 h1).1
  unfold coreRender at h2
  have h3 := (List.append_eq_nil.1 h2).1
  have h4 := (List.append_eq_nil.1 h3).1
  have h5 := (List.append_eq_nil.1 h4).1
  exact natDigits_ne_nil v.Major h5

theorem Parse_render {v : Version} (hv : ValidVersion v) :
    Parse v.String = some v := by
  have hfields := matchStrict_render hv
  unfold Parse
  rw [if_neg (vString_length_ne v)]
  rw [hfields]
  show buildVersion (natDigits v.Major) (natDigits v.Minor) (natDigits v.Patch)
    (if 0 ≤ v.Revision then some (natDigits v.Revision.toNat) else none)
    (match v.Pre with
     | [] => none
     | _ :: _ => some (dotJoin (v.Pre.map PRVersion.String)))
    (match v.Build with
     | [] => none
     | _ :: _ => some (dotJoin v.Build)) = some v
  obtain ⟨hM, hm, hp, hrev, hpre, hbld⟩ := hv
  unfold buildVersion
  rw [parseUint64_natDigits hM, parseUint64_natDigits hm, parseUint64_natDigits hp]
  have hrv : (match (if 0 ≤ v.Revision then some (natDigits v.Revision.toNat)
        else none : Option (List Char)) with
      | none => some (-1 : Int)
      | some r => parseInt64Digits r) = some v.Revision := by
    rcases hrev with h | h
    · rw [if_neg (by omega)]
      rw [h]
    · rw [if_pos h.1]
      show parseInt64Digits (natDigits v.Revision.toNat) = some v.Revision
      exact parseInt64Digits_natDigits h.1 h.2
  rw [hrv]
  have hpr : (match v.Pre with
      | [] => (none : Option (List Char))
      | _ :: _ => some (dotJoin (v.Pre.map PRVersion.String))) =
        (match v.Pre with
         | [] => none
         | _ :: _ => some (dotJoin (v.Pre.map PRVersion.String))) := rfl
  have hprev : (match (match v.Pre with
        | [] => (none : Option (List Char))
        | _ :: _ => some (dotJoin (v.Pre.map PRVersion.String))) with
      | none => some ([] : List PRVersion)
      | some p => preFromSegs (splitOnDot p)) = some v.Pre := by
    cases hq : v.Pre with
    | nil => rfl
    | cons x xs =>
      rw [hq] at hpre
      have hdots : ∀ seg ∈ (x :: xs).map PRVersion.String, '.' ∉ seg := by
        intro seg hs
        rcases List.mem_map.1 hs with ⟨w, hw, rfl⟩
        exact not_mem_of_containsOnly (pr_string_facts (hpre w hw)).2 (by decide)
      show preFromSegs (splitOnDot (dotJoin ((x :: xs).map PRVersion.String))) =
        some (x :: xs)
      rw [splitOnDot_dotJoin (by simp) hdots]
      exact preFromSegs_render hpre
  rw [hprev]
  have hbl : (match (match v.Build with
        | [] => (none : Option (List Char))
        | _ :: _ => some (dotJoin v.Build)) with
      | none => some ([] : List (List Char))
      | some b => buildFromSegs (splitOnDot b)) = some v.Build := by
    cases hq : v.Build with
    | nil => rfl
    | cons x xs =>
      rw [hq] at hbld
      have hdots : ∀ seg ∈ (x :: xs), '.' ∉ seg := fun seg hs =>
        not_mem_of_containsOnly (hbld seg hs).2 (by decide)
      show buildFromSegs (splitOnDot (dotJoin (x :: xs))) = some (x :: xs)
      rw [splitOnDot_dotJoin (by simp) hdots]
      exact buildFromSegs_render hbld
  rw [hbl]

/-- C5: round-trip — whenever Parse succeeds with Version v, parsing the
canonical rendering of v succeeds and returns exactly v (all fields equal). -/
theorem C5_roundtrip :
    ∀ (s : List Char) (v : Version), Parse s = some v →
      Parse (Version.String v) = some v := by
  intro s v h
  exact Parse_render (Parse_valid h)

/-- C5 witness: the round trip applied to a parse of 1.2.3.0-alpha.7+x01. -/
theorem C5_roundtrip_witness :
    Parse (Version.String ⟨1, 2, 3, 0, [⟨chars "alpha", 0, false⟩, ⟨[], 7, true⟩],
      [chars "x01"]⟩) = some ⟨1, 2, 3, 0,
        [⟨chars "alpha", 0, false⟩, ⟨[], 7, true⟩], [chars "x01"]⟩ :=
  C5_roundtrip (chars "1.2.3.0-alpha.7+x01") _ (by decide)

theorem takeWhile_digits_containsOnly (l : List Char) :
    containsOnly (l.takeWhile (fun c => numbers.contains c)) numbers = true := by
  rw [containsOnly_iff]
  intro c hc
  exact contains_iff.1 (List.mem_takeWhile_imp hc)

theorem tolRevText_digits (s : List Char) :
    containsOnly (tolRevText s) numbers = true := by
  unfold tolRevText
  split
  · split_ifs with h
    · exact takeWhile_digits_containsOnly _
    · rfl
  · rfl

theorem matchTolerant_inv {s : List Char} {f : TolFields}
    (h : matchTolerant s = some f) :
    (tolS9 s).all isSpaceGo = true ∧
    f = ⟨(tolS1 s).takeWhile (fun c => numbers.contains c),
         (tolS3 s).takeWhile (fun c => numbers.contains c),
         (tolS5 s).takeWhile (fun c => numbers.contains c),
         tolRevText (tolS6 s), scanText '-' (tolS7 s), scanText '+' (tolS8 s)⟩ := by
  unfold matchTolerant at h
  split_ifs at h with hall
  exact ⟨hall, (Option.some_inj.1 h).symm⟩

theorem matchTolerant_fields_digits {s : List Char} {f : TolFields}
    (h : matchTolerant s = some f) :
    containsOnly f.major numbers = true ∧ containsOnly f.minor numbers = true ∧
    containsOnly f.patch numbers = true ∧
    containsOnly f.revision numbers = true := by
  obtain ⟨-, hf⟩ := matchTolerant_inv h
  subst hf
  exact ⟨takeWhile_digits_containsOnly _, takeWhile_digits_containsOnly _,
    takeWhile_digits_containsOnly _, tolRevText_digits _⟩

theorem dropWhile_head_false {p : Char → Bool} {l : List Char} {c : Char}
    {rest : List Char} (h : l.dropWhile p = c :: rest) : p c = false := by
  induction l with
  | nil => exact List.noConfusion h
  | cons a as ih =>
    rw [List.dropWhile_cons] at h
    split_ifs at h with hp
    · exact ih h
    · injection h with h1 h2
      subst h1
      simpa using hp

theorem containsOnly_dropWhile {p : Char → Bool} {s set : List Char}
    (h : containsOnly s set = true) :
    containsOnly (s.dropWhile p) set = true := by
  induction s with
  | nil => exact h
  | cons c cs ih =>
    rw [containsOnly_iff] at h
    rw [List.dropWhile_cons]
    split_ifs with hp
    · exact ih (containsOnly_iff.2 (fun x hx => h x (List.mem_cons_of_mem c hx)))
    · exact containsOnly_iff.2 h

theorem digitsToNat_cons_zero (s : List Char) :
    digitsToNat ('0' :: s) = digitsToNat s := rfl

theorem digitsToNat_dropZeros (s : List Char) :
    digitsToNat (s.dropWhile (fun c => c = '0')) = digitsToNat s := by
  induction s with
  | nil => rfl
  | cons c rest ih =>
    rw [List.dropWhile_cons]
    split_ifs with h
    · have hc : c = '0' := of_decide_eq_true h
      rw [ih, hc, digitsToNat_cons_zero]
    · rfl

theorem normalizeZeros_digits {s : List Char}
    (h : containsOnly s numbers = true) :
    containsOnly (normalizeZeros s) numbers = true := by
  simp only [normalizeZeros]
  split_ifs with h1 h2
  · decide
  · exact containsOnly_dropWhile h
  · exact h

theorem normalizeZeros_noLeadingZeroes (s : List Char) :
    hasLeadingZeroes (normalizeZeros s) = false := by
  simp only [normalizeZeros]
  split_ifs with h1 h2
  · decide
  · cases hq : s.dropWhile (fun c => c = '0') with
    | nil => rw [hq] at h2; exact absurd rfl h2
    | cons c rest =>
      have hc : ¬ c = '0' := by
        have := dropWhile_head_false hq
        simpa using this
      simp [hasLeadingZeroes, hc]
  · cases s with
    | nil => rfl
    | cons c rest =>
      have hr : rest = [] := by
        cases rest with
        | nil => rfl
        | cons d ds => exfalso; simp at h1
      subst hr
      rfl

theorem normalizeZeros_value (s : List Char) :
    digitsToNat (normalizeZeros s) = digitsToNat s := by
  simp only [normalizeZeros]
  split_ifs with h1 h2
  · have ht : s.dropWhile (fun c => c = '0') = [] := by simpa using h2
    rw [← digitsToNat_dropZeros s, ht]
    rfl
  · exact digitsToNat_dropZeros s
  · rfl

theorem isNumField_of {s : List Char} (h1 : s ≠ [])
    (h2 : containsOnly s numbers = true) (h3 : hasLeadingZeroes s = false) :
    isNumField s = true := by
  unfold isNumField
  rw [h2, h3]
  cases s with
  | nil => exact absurd rfl h1
  | cons c rest => rfl

theorem parseUint64_of {s : List Char} (h1 : s ≠ [])
    (h2 : containsOnly s numbers = true) (h3 : digitsToNat s < 2 ^ 64) :
    parseUint64 s = some (digitsToNat s) := by
  have he : s.isEmpty = false := by
    cases s with
    | nil => exact absurd rfl h1
    | cons c rest => rfl
  simp [parseUint64, he, h2]
  simpa using h3

theorem parseInt64Digits_of {s : List Char} (h1 : s ≠ [])
    (h2 : containsOnly s numbers = true) (h3 : digitsToNat s ≤ 2 ^ 63 - 1) :
    parseInt64Digits s = some (Int.ofNat (digitsToNat s)) := by
  have he : s.isEmpty = false := by
    cases s with
    | nil => exact absurd rfl h1
    | cons c rest => rfl
  simp [parseInt64Digits, he, h2]
  simpa using h3

theorem normalizeZeros_nil_iff (s : List Char) :
    normalizeZeros s = [] ↔ s = [] := by
  simp only [normalizeZeros]
  split_ifs with h1 h2
  · constructor
    · intro h; exact absurd h (by decide)
    · intro h; subst h; simp at h1
  · cases hq : s.dropWhile (fun c => c = '0') with
    | nil => rw [hq] at h2; exact absurd rfl h2
    | cons c rest =>
      constructor
      · intro h; exact List.noConfusion h
      · intro h; subst h; exact List.noConfusion hq
  · exact Iff.rfl

theorem fill_spec {x : List Char} (h : containsOnly x numbers = true) :
    (if (normalizeZeros x).isEmpty = true then chars "0" else normalizeZeros x)
      ≠ [] ∧
    containsOnly (if (normalizeZeros x).isEmpty = true then chars "0"
      else normalizeZeros x) numbers = true ∧
    hasLeadingZeroes (if (normalizeZeros x).isEmpty = true then chars "0"
      else normalizeZeros x) = false ∧
    digitsToNat (if (normalizeZeros x).isEmpty = true then chars "0"
      else normalizeZeros x) = digitsToNat x := by
  split_ifs with he
  · have hx : x = [] := by
      have hnil : normalizeZeros x = [] := by simpa using he
      exact (normalizeZeros_nil_iff x).1 hnil
    subst hx
    exact ⟨by decide, by decide, by decide, by decide⟩
  · refine ⟨?_, normalizeZeros_digits h, normalizeZeros_noLeadingZeroes x,
      normalizeZeros_value x⟩
    intro hnil
    rw [hnil] at he
    exact he rfl

theorem numbers_sub_dotnumbers : ∀ c ∈ numbers, c ∈ '.' :: numbers :=
  fun c hc => List.mem_cons_of_mem '.' hc

theorem Parse_assemble_core {A B C R : List Char}
    (hA : A ≠ []) (hdA : containsOnly A numbers = true)
    (hlA : hasLeadingZeroes A = false) (hvA : digitsToNat A < 2 ^ 64)
    (hB : B ≠ []) (hdB : containsOnly B numbers = true)
    (hlB : hasLeadingZeroes B = false) (hvB : digitsToNat B < 2 ^ 64)
    (hC : C ≠ []) (hdC : containsOnly C numbers = true)
    (hlC : hasLeadingZeroes C = false) (hvC : digitsToNat C < 2 ^ 64)
    (hdR : containsOnly R numbers = true) (hlR : hasLeadingZeroes R = false)
    (hvR : digitsToNat R ≤ 2 ^ 63 - 1) :
    Parse (assemble A B C R [] []) =
      some ⟨digitsToNat A, digitsToNat B, digitsToNat C,
        if R = [] then -1 else Int.ofNat (digitsToNat R), [], []⟩ := by
  have hdotA : '.' ∉ A := not_mem_of_containsOnly hdA (by decide)
  have hdotB : '.' ∉ B := not_mem_of_containsOnly hdB (by decide)
  have hdotC : '.' ∉ C := not_mem_of_containsOnly hdC (by decide)
  have hdotR : '.' ∉ R := not_mem_of_containsOnly hdR (by decide)
  cases R with
  | nil =>
    have heq : assemble A B C [] [] [] = A ++ '.' :: B ++ '.' :: C := by
      simp [assemble]
    have hchars : containsOnly (A ++ '.' :: B ++ '.' :: C) ('.' :: numbers)
        = true :=
      containsOnly_append
        (containsOnly_append (containsOnly_of_sub hdA numbers_sub_dotnumbers)
          (containsOnly_cons_of (List.mem_cons_self _ _)
            (containsOnly_of_sub hdB numbers_sub_dotnumbers)))
        (containsOnly_cons_of (List.mem_cons_self _ _)
          (containsOnly_of_sub hdC numbers_sub_dotnumbers))
    have hplus : '+' ∉ A ++ '.' :: B ++ '.' :: C :=
      not_mem_of_containsOnly hchars (by decide)
    have hminus : '-' ∉ A ++ '.' :: B ++ '.' :: C :=
      not_mem_of_containsOnly hchars (by decide)
    have hlen : ¬ (A ++ '.' :: B ++ '.' :: C).length = 0 := by
      intro h
      rw [List.length_eq_zero] at h
      exact hA (List.append_eq_nil.1 (List.append_eq_nil.1 h).1).1
    have hsplit : splitOnDot (A ++ '.' :: B ++ '.' :: C) = [A, B, C] := by
      simp only [List.append_assoc, List.cons_append]
      rw [splitOnDot_append hdotA, splitOnDot_append hdotB,
        splitOnDot_no_dot hdotC]
    have hmatch : matchStrict (A ++ '.' :: B ++ '.' :: C) =
        some ⟨A, B, C, none, none, none⟩ := by
      unfold matchStrict
      rw [splitAtFirst_not_mem hplus]
      simp only [splitAtFirst_not_mem hminus, hsplit, if_true_and_true]
      simp [isNumField_of hA hdA hlA, isNumField_of hB hdB hlB,
        isNumField_of hC hdC hlC]
    rw [heq]
    unfold Parse
    rw [if_neg hlen, hmatch]
    show buildVersion A B C none none none = _
    unfold buildVersion
    rw [parseUint64_of hA hdA hvA, parseUint64_of hB hdB hvB,
      parseUint64_of hC hdC hvC]
    simp
  | cons r rs =>
    have hR : (r :: rs) ≠ [] := List.cons_ne_nil r rs
    have heq : assemble A B C (r :: rs) [] [] =
        A ++ '.' :: B ++ '.' :: C ++ '.' :: (r :: rs) := by
      simp [assemble]
    have hchars : containsOnly (A ++ '.' :: B ++ '.' :: C ++ '.' :: (r :: rs))
        ('.' :: numbers) = true :=
      containsOnly_append
        (containsOnly_append
          (containsOnly_append (containsOnly_of_sub hdA numbers_sub_dotnumbers)
            (containsOnly_cons_of (List.mem_cons_self _ _)
              (containsOnly_of_sub hdB numbers_sub_dotnumbers)))
          (containsOnly_cons_of (List.mem_cons_self _ _)
            (containsOnly_of_sub hdC numbers_sub_dotnumbers)))
        (containsOnly_cons_of (List.mem_cons_self _ _)
          (containsOnly_of_sub hdR numbers_sub_dotnumbers))
    have hplus : '+' ∉ A ++ '.' :: B ++ '.' :: C ++ '.' :: (r :: rs) :=
      not_mem_of_containsOnly hchars (by decide)
    have hminus : '-' ∉ A ++ '.' :: B ++ '.' :: C ++ '.' :: (r :: rs) :=
      not_mem_of_containsOnly hchars (by decide)
    have hlen : ¬ (A ++ '.' :: B ++ '.' :: C ++ '.' :: (r :: rs)).length = 0 := by
      intro h
      rw [List.length_eq_zero] at h
      exact hA (List.append_eq_nil.1
        (List.append_eq_nil.1 (List.append_eq_nil.1 h).1).1).1
    have hsplit : splitOnDot (A ++ '.' :: B ++ '.' :: C ++ '.' :: (r :: rs)) =
        [A, B, C, r :: rs] := by
      simp only [List.append_assoc, List.cons_append]
      rw [splitOnDot_append hdotA, splitOnDot_append hdotB,
        splitOnDot_append hdotC, splitOnDot_no_dot hdotR]
    have hmatch : matchStrict (A ++ '.' :: B ++ '.' :: C ++ '.' :: (r :: rs)) =
        some ⟨A, B, C, some (r :: rs), none, none⟩ := by
      unfold matchStrict
      rw [splitAtFirst_not_mem hplus]
      simp only [splitAtFirst_not_mem hminus, hsplit, if_true_and_true]
      simp [isNumField_of hA hdA hlA, isNumField_of hB hdB hlB,
        isNumField_of hC hdC hlC, isNumField_of hR hdR hlR]
    rw [heq]
    unfold Parse
    rw [if_neg hlen, hmatch]
    show buildVersion A B C (some (r :: rs)) none none = _
    unfold buildVersion
    rw [parseUint64_of hA hdA hvA, parseUint64_of hB hdB hvB,
      parseUint64_of hC hdC hvC]
    have hrv : (match (some (r :: rs) : Option (List Char)) with
        | none => some (-1 : Int)
        | some x => parseInt64Digits x) = some (Int.ofNat (digitsToNat (r :: rs)))
        := by
      show parseInt64Digits (r :: rs) = _
      exact parseInt64Digits_of hR hdR hvR
    rw [hrv]
    simp

theorem tolAssemble_short {f : TolFields}
    (hdM : containsOnly f.major numbers = true)
    (hdm : containsOnly f.minor numbers = true)
    (hdp : containsOnly f.patch numbers = true)
    (hdr : containsOnly f.revision numbers = true)
    (hshort : f.major = [] ∨ f.minor = [] ∨ f.patch = []) :
    (¬ f.prerelease = [] ∨ ¬ f.buildmetadata = [] → tolAssemble f = none) ∧
    (f.prerelease = [] → f.buildmetadata = [] →
      digitsToNat f.major < 2 ^ 64 → digitsToNat f.minor < 2 ^ 64 →
      digitsToNat f.patch < 2 ^ 64 → digitsToNat f.revision ≤ 2 ^ 63 - 1 →
      tolAssemble f = some ⟨digitsToNat f.major, digitsToNat f.minor,
        digitsToNat f.patch,
        if f.revision = [] then -1 else Int.ofNat (digitsToNat f.revision),
        [], []⟩) := by
  have hcond : ((normalizeZeros f.patch).isEmpty
      || (normalizeZeros f.minor).isEmpty
      || (normalizeZeros f.major).isEmpty) = true := by
    rcases hshort with h | h | h <;> rw [h] <;> simp [normalizeZeros]
  have hnonnil : ∀ l : List Char, ¬ l = [] → (!l.isEmpty) = true := by
    intro l hl
    cases l with
    | nil => exact absurd rfl hl
    | cons x xs => rfl
  constructor
  · intro hsuf
    simp only [tolAssemble]
    rw [if_pos hcond]
    have hpb : (!f.prerelease.isEmpty || !f.buildmetadata.isEmpty) = true := by
      rcases hsuf with h | h
      · rw [hnonnil _ h]; rfl
      · rw [hnonnil _ h]; simp
    rw [if_pos hpb]
  · intro hpre hbld hv1 hv2 hv3 hv4
    simp only [tolAssemble]
    rw [if_pos hcond]
    have hpb : ¬ ((!f.prerelease.isEmpty || !f.buildmetadata.isEmpty) = true) := by
      rw [hpre, hbld]
      decide
    rw [if_neg hpb, hpre, hbld]
    obtain ⟨hA1, hA2, hA3, hA4⟩ := fill_spec hdM
    obtain ⟨hB1, hB2, hB3, hB4⟩ := fill_spec hdm
    obtain ⟨hC1, hC2, hC3, hC4⟩ := fill_spec hdp
    rw [Parse_assemble_core hA1 hA2 hA3 (by rw [hA4]; exact hv1)
      hB1 hB2 hB3 (by rw [hB4]; exact hv2)
      hC1 hC2 hC3 (by rw [hC4]; exact hv3)
      (normalizeZeros_digits hdr) (normalizeZeros_noLeadingZeroes f.revision)
      (by rw [normalizeZeros_value]; exact hv4)]
    rw [hA4, hB4, hC4]
    have hrw : (if normalizeZeros f.revision = [] then (-1 : Int)
        else Int.ofNat (digitsToNat (normalizeZeros f.revision))) =
        (if f.revision = [] then -1 else Int.ofNat (digitsToNat f.revision)) := by
      by_cases hrev : f.revision = []
      · rw [hrev]
        simp [normalizeZeros]
      · rw [if_neg hrev,
          if_neg (fun hh => hrev ((normalizeZeros_nil_iff _).1 hh)),
          normalizeZeros_value]
    rw [hrw]

/-- C8 counterexample: on "18446744073709551616" (2^64) the tolerant regex
matches with minor and patch absent and no prerelease/build suffix, so the
claimed short-form rule promises success after filling with "0" — but
ParseTolerant fails, because the filled string's major overflows uint64. -/
theorem C8_counterexample :
    matchTolerant (chars "18446744073709551616") =
      some ⟨chars "18446744073709551616", [], [], [], [], []⟩ ∧
    ParseTolerant (chars "18446744073709551616") = none := by
  constructor
  · decide
  · decide

/-- C8 (amended): whenever the tolerant regex matched with at least one of
major, minor, patch absent, ParseTolerant fails if a prerelease or build
capture was supplied; otherwise it fills each absent field with "0" and, when
the numeric values fit (major, minor, patch below 2^64 and revision at most
2^63-1), succeeds with exactly those values (an absent or filled field reading
as 0) and an absent revision mapped to -1. Concretely ParseTolerant("1.2")
yields the same Version as Parse("1.2.0"), namely 1.2.0, while
ParseTolerant("1.2-alpha") fails. -/
theorem C8_short_form :
    (∀ (s : List Char) (f : TolFields), matchTolerant s = some f →
      f.major = [] ∨ f.minor = [] ∨ f.patch = [] →
      ((¬ f.prerelease = [] ∨ ¬ f.buildmetadata = [] → ParseTolerant s = none) ∧
       (f.prerelease = [] → f.buildmetadata = [] →
        digitsToNat f.major < 2 ^ 64 → digitsToNat f.minor < 2 ^ 64 →
        digitsToNat f.patch < 2 ^ 64 → digitsToNat f.revision ≤ 2 ^ 63 - 1 →
        ParseTolerant s = some ⟨digitsToNat f.major, digitsToNat f.minor,
          digitsToNat f.patch,
          if f.revision = [] then -1 else Int.ofNat (digitsToNat f.revision),
          [], []⟩))) ∧
    ParseTolerant (chars "1.2") = Parse (chars "1.2.0") ∧
    ParseTolerant (chars "1.2") = some ⟨1, 2, 0, -1, [], []⟩ ∧
    ParseTolerant (chars "1.2-alpha") = none := by
  refine ⟨?_, by decide, by decide, by decide⟩
  intro s f hm hshort
  obtain ⟨hdM, hdm, hdp, hdr⟩ := matchTolerant_fields_digits hm
  have hPT : ∀ r : Option Version, tolAssemble f = r → ParseTolerant s = r := by
    intro r hr
    show (match matchTolerant s with
          | none => none
          | some g => tolAssemble g) = r
    rw [hm]
    exact hr
  obtain ⟨ha, hb⟩ := tolAssemble_short hdM hdm hdp hdr hshort
  exact ⟨fun h => hPT _ (ha h),
    fun h1 h2 h3 h4 h5 h6 => hPT _ (hb h1 h2 h3 h4 h5 h6)⟩

/-- C8 witness: the amended short-form rule applied to "1.2", whose tolerant
match has patch absent and no suffix; ParseTolerant returns 1.2.0. -/
theorem C8_short_form_witness :
    ParseTolerant (chars "1.2") = some ⟨1, 2, 0, -1, [], []⟩ := by
  have h := (C8_short_form.1 (chars "1.2")
    ⟨chars "1", chars "2", [], [], [], []⟩ (by decide)
    (Or.inr (Or.inr rfl))).2 rfl rfl (by decide) (by decide) (by decide)
    (by decide)
  exact h.trans (by decide)

theorem splitAtFirst_none_inv {c : Char} {s a : List Char}
    (h : splitAtFirst c s = (a, none)) : s = a ∧ c ∉ a := by
  induction s generalizing a with
  | nil =>
    simp only [splitAtFirst] at h
    injection h with h1 h2
    subst h1
    exact ⟨rfl, by simp⟩
  | cons x xs ih =>
    simp only [splitAtFirst] at h
    split_ifs at h with hx
    · injection h with h1 h2
      exact Option.noConfusion h2
    · injection h with h1 h2
      have hr : splitAtFirst c xs = ((splitAtFirst c xs).1, none) := by
        rw [← h2]
      obtain ⟨ha, hc⟩ := ih hr
      subst h1
      constructor
      · exact congrArg (List.cons x) ha
      · intro hmem
        rcases List.mem_cons.1 hmem with hh | hh
        · exact hx hh.symm
        · exact hc hh

theorem splitAtFirst_some_inv {c : Char} {s a b : List Char}
    (h : splitAtFirst c s = (a, some b)) : s = a ++ c :: b ∧ c ∉ a := by
  induction s generalizing a with
  | nil =>
    simp only [splitAtFirst] at h
    injection h with h1 h2
    exact Option.noConfusion h2
  | cons x xs ih =>
    simp only [splitAtFirst] at h
    split_ifs at h with hx
    · injection h with h1 h2
      subst hx
      injection h2 with h2
      subst h2
      subst h1
      exact ⟨rfl, by simp⟩
    · injection h with h1 h2
      have hr : splitAtFirst c xs = ((splitAtFirst c xs).1, some b) := by
        rw [← h2]
      obtain ⟨ha, hc⟩ := ih hr
      subst h1
      constructor
      · simp only [List.cons_append]
        exact congrArg (List.cons x) ha
      · intro hmem
        rcases List.mem_cons.1 hmem with hh | hh
        · exact hx hh.symm
        · exact hc hh

theorem dotJoin_splitOnDot (s : List Char) : dotJoin (splitOnDot s) = s := by
  induction s with
  | nil => rfl
  | cons c rest ih =>
    rw [splitOnDot]
    rcases hq : splitOnDot rest with - | ⟨g, gs⟩
    · exact absurd hq (splitOnDot_ne_nil rest)
    · simp only [hq]
      rw [hq] at ih
      by_cases hc : c = '.'
      · rw [if_pos hc, hc, dotJoin_cons, ih]
        rfl
      · rw [if_neg hc]
        cases gs with
        | nil =>
          show c :: g = c :: rest
          rw [show g = rest from ih]
        | cons u us =>
          rw [dotJoin_cons]
          rw [dotJoin_cons] at ih
          rw [← ih]
          rfl

theorem splitOnDot_parts_no_dot (s : List Char) :
    ∀ part ∈ splitOnDot s, '.' ∉ part := by
  induction s with
  | nil =>
    intro part hp
    have hp' : part = [] := by simpa [splitOnDot] using hp
    subst hp'
    simp
  | cons c rest ih =>
    intro part hp
    rw [splitOnDot] at hp
    rcases hq : splitOnDot rest with - | ⟨g, gs⟩
    · exact absurd hq (splitOnDot_ne_nil rest)
    · simp only [hq] at hp
      by_cases hc : c = '.'
      · rw [if_pos hc] at hp
        rcases List.mem_cons.1 hp with hh | hh
        · subst hh; simp
        · exact ih part (by rw [hq]; exact hh)
      · rw [if_neg hc] at hp
        rcases List.mem_cons.1 hp with hh | hh
        · subst hh
          intro hmem
          rcases List.mem_cons.1 hmem with hh2 | hh2
          · exact hc hh2.symm
          · exact ih g (by rw [hq]; exact List.mem_cons_self g gs) hh2
        · exact ih part (by rw [hq]; exact List.mem_cons_of_mem g hh)

theorem isNumField_parts {s : List Char} (h : isNumField s = true) :
    s ≠ [] ∧ containsOnly s numbers = true ∧ hasLeadingZeroes s = false := by
  have h' : (!s.isEmpty && containsOnly s numbers && !hasLeadingZeroes s)
      = true := h
  rw [Bool.and_eq_true, Bool.and_eq_true] at h'
  obtain ⟨⟨h1, h2⟩, h3⟩ := h'
  refine ⟨?_, h2, ?_⟩
  · intro hh
    subst hh
    exact Bool.noConfusion h1
  · cases hq : hasLeadingZeroes s with
    | false => rfl
    | true => rw [hq] at h3; exact Bool.noConfusion h3

theorem isBuildSegment_parts {s : List Char} (h : isBuildSegment s = true) :
    s ≠ [] ∧ containsOnly s alphanum = true := by
  have h' : (!s.isEmpty && containsOnly s alphanum) = true := h
  rw [Bool.and_eq_true] at h'
  obtain ⟨h1, h2⟩ := h'
  refine ⟨?_, h2⟩
  intro hh
  subst hh
  exact Bool.noConfusion h1

theorem isPreSegment_parts {s : List Char} (h : isPreSegment s = true) :
    s ≠ [] ∧ containsOnly s alphanum = true := by
  have h' : ((!s.isEmpty && containsOnly s numbers && !hasLeadingZeroes s)
      || isPreSegAlt s) = true := h
  rw [Bool.or_eq_true] at h'
  rcases h' with h' | h'
  · rw [Bool.and_eq_true, Bool.and_eq_true] at h'
    obtain ⟨⟨h1, h2⟩, h3⟩ := h'
    refine ⟨?_, containsOnly_of_sub h2 numbers_sub_alphanum⟩
    intro hh
    subst hh
    exact Bool.noConfusion h1
  · rcases hq : s.dropWhile (fun c => numbers.contains c) with - | ⟨c, rest⟩
    · rw [isPreSegAlt, hq] at h'
      exact Bool.noConfusion h'
    · rw [isPreSegAlt, hq] at h'
      have h'' : (alphas.contains c && containsOnly rest alphanum) = true := h'
      rw [Bool.and_eq_true] at h''
      obtain ⟨hc, hrest⟩ := h''
      have hsplit : s = s.takeWhile (fun c => numbers.contains c) ++ c :: rest := by
        rw [← hq, List.takeWhile_append_dropWhile]
      constructor
      · intro hh
        rw [hh] at hq
        exact List.noConfusion hq
      · rw [hsplit]
        exact containsOnly_append
          (containsOnly_of_sub (takeWhile_digits_containsOnly s)
            numbers_sub_alphanum)
          (containsOnly_cons_of (mem_alphanum_iff.2 (Or.inl (contains_iff.1 hc)))
            hrest)

theorem preSegs_facts {p : List Char}
    (h : (splitOnDot p).all isPreSegment = true) :
    p ≠ [] ∧ ∀ seg ∈ splitOnDot p, seg ≠ [] ∧ containsOnly seg alphanum = true := by
  constructor
  · intro hh
    subst hh
    have hmem := List.all_eq_true.1 h []
      (by rw [show splitOnDot [] = [[]] from rfl]; exact List.mem_cons_self _ _)
    exact absurd hmem (by decide)
  · intro seg hseg
    exact isPreSegment_parts (List.all_eq_true.1 h seg hseg)

theorem bldSegs_facts {b : List Char}
    (h : (splitOnDot b).all isBuildSegment = true) :
    b ≠ [] ∧ ∀ seg ∈ splitOnDot b, seg ≠ [] ∧ containsOnly seg alphanum = true := by
  constructor
  · intro hh
    subst hh
    have hmem := List.all_eq_true.1 h []
      (by rw [show splitOnDot [] = [[]] from rfl]; exact List.mem_cons_self _ _)
    exact absurd hmem (by decide)
  · intro seg hseg
    exact isBuildSegment_parts (List.all_eq_true.1 h seg hseg)

theorem takeWhile_all_append {p : Char → Bool} (a : List Char) {rest : List Char}
    (hrest : ∀ c, rest.head? = some c → p c = false) :
    a.all p = true → (a ++ rest).takeWhile p = a := by
  induction a with
  | nil =>
    intro _h
    cases rest with
    | nil => rfl
    | cons c cs => simp [List.takeWhile_cons, hrest c rfl]
  | cons x xs ih =>
    intro ha
    rw [List.all_cons, Bool.and_eq_true] at ha
    obtain ⟨hx, ha'⟩ := ha
    simp only [List.cons_append, List.takeWhile_cons, hx, if_true]
    rw [ih ha']

theorem dropWhile_all_append {p : Char → Bool} (a : List Char) {rest : List Char}
    (hrest : ∀ c, rest.head? = some c → p c = false) :
    a.all p = true → (a ++ rest).dropWhile p = rest := by
  induction a with
  | nil =>
    intro _h
    cases rest with
    | nil => rfl
    | cons c cs => simp [List.dropWhile_cons, hrest c rfl]
  | cons x xs ih =>
    intro ha
    rw [List.all_cons, Bool.and_eq_true] at ha
    obtain ⟨hx, ha'⟩ := ha
    simp only [List.cons_append, List.dropWhile_cons, hx, if_true]
    exact ih ha'

theorem skipDot_dot (t : List Char) : skipDot ('.' :: t) = t := rfl

theorem skipDot_not_dot {t : List Char}
    (h : ∀ c, t.head? = some c → ¬ c = '.') : skipDot t = t := by
  unfold skipDot
  rw [if_neg]
  intro hh
  cases t with
  | nil => exact Option.noConfusion hh
  | cons c cs =>
    injection hh with hh
    exact h c rfl hh

theorem tolRevText_stop {s : List Char}
    (h : ∀ c, s.head? = some c → ¬ c = '.') : tolRevText s = [] := by
  cases s with
  | nil => rfl
  | cons c cs =>
    cases cs with
    | nil => rfl
    | cons d rest =>
      have hc : ¬ c = '.' := h c rfl
      simp [tolRevText, hc]

theorem tolRevRest_stop {s : List Char}
    (h : ∀ c, s.head? = some c → ¬ c = '.') : tolRevRest s = s := by
  cases s with
  | nil => rfl
  | cons c cs =>
    cases cs with
    | nil => rfl
    | cons d rest =>
      have hc : ¬ c = '.' := h c rfl
      simp [tolRevRest, hc]

theorem scanText_stop {marker : Char} {s : List Char}
    (h : ∀ c, s.head? = some c → ¬ c = marker) : scanText marker s = [] := by
  cases s with
  | nil => rfl
  | cons c cs => simp [scanText, h c rfl]

theorem scanRest_stop {marker : Char} {s : List Char}
    (h : ∀ c, s.head? = some c → ¬ c = marker) : scanRest marker s = s := by
  cases s with
  | nil => rfl
  | cons c cs => simp [scanRest, h c rfl]

theorem grabDotted_alphanum_front (seg : List Char) {rest : List Char} :
    containsOnly seg alphanum = true →
    grabDotted (seg ++ rest) = (seg ++ (grabDotted rest).1, (grabDotted rest).2)
    := by
  induction seg with
  | nil => intro _h; rfl
  | cons c cs ih =>
    intro h
    have hc : alphanum.contains c = true :=
      contains_iff.2 (containsOnly_iff.1 h c (List.mem_cons_self c cs))
    have h' : containsOnly cs alphanum = true :=
      containsOnly_iff.2 (fun x hx =>
        containsOnly_iff.1 h x (List.mem_cons_of_mem c hx))
    show grabDotted (c :: (cs ++ rest)) = _
    simp only [grabDotted, hc, if_true]
    rw [ih h']
    rfl

theorem grabDotted_stop {s : List Char}
    (h : ∀ c, s.head? = some c → alphanum.contains c = false ∧ ¬ c = '.') :
    grabDotted s = ([], s) := by
  cases s with
  | nil => rfl
  | cons c cs =>
    obtain ⟨h1, h2⟩ := h c rfl
    have h1' : c ∉ alphanum := fun hmem => by
      rw [contains_iff.2 hmem] at h1
      exact Bool.noConfusion h1
    simp [grabDotted, h1, h2, h1']

theorem grabDotted_dot_cont {u : List Char} {d : Char} (hu : u.head? = some d)
    (hd : alphanum.contains d = true) {a b : List Char}
    (hab : grabDotted u = (a, b)) :
    grabDotted ('.' :: u) = ('.' :: a, b) := by
  cases u with
  | nil => exact Option.noConfusion hu
  | cons e etl =>
    injection hu with hu
    subst hu
    rw [grabDotted, if_neg (show ¬ (alphanum.contains '.' = true) by decide),
      if_pos (show ('.' : Char) = '.' from rfl)]
    show (if alphanum.contains e = true then
        ('.' :: (grabDotted (e :: etl)).1, (grabDotted (e :: etl)).2)
      else ([], '.' :: e :: etl)) = _
    rw [if_pos hd, hab]

theorem grabDotted_dotJoin {rest : List Char}
    (hrest : ∀ c, rest.head? = some c → alphanum.contains c = false ∧ ¬ c = '.') :
    ∀ segs : List (List Char), segs ≠ [] →
    (∀ seg ∈ segs, seg ≠ [] ∧ containsOnly seg alphanum = true) →
    grabDotted (dotJoin segs ++ rest) = (dotJoin segs, rest) := by
  intro segs
  induction segs with
  | nil => intro h; exact absurd rfl h
  | cons s ts ih =>
    intro _h hsegs
    obtain ⟨hs1, hs2⟩ := hsegs s (List.mem_cons_self s ts)
    cases ts with
    | nil =>
      show grabDotted (s ++ rest) = (s, rest)
      rw [grabDotted_alphanum_front s hs2, grabDotted_stop hrest]
      simp
    | cons t ts' =>
      have ht1 := (hsegs t (List.mem_cons_of_mem s (List.mem_cons_self t ts'))).1
      have hjoin_ne : dotJoin (t :: ts') ≠ [] := by
        cases ts' with
        | nil => exact ht1
        | cons u us =>
          rw [dotJoin_cons]
          intro hh
          exact ht1 (List.append_eq_nil.1 hh).1
      obtain ⟨d, dtl, hd⟩ : ∃ d dtl, t = d :: dtl := by
        cases t with
        | nil => exact absurd rfl ht1
        | cons d dtl => exact ⟨d, dtl, rfl⟩
      have hdal : alphanum.contains d = true := by
        have ht2 := (hsegs t (List.mem_cons_of_mem s (List.mem_cons_self t ts'))).2
        rw [hd] at ht2
        exact contains_iff.2 (containsOnly_iff.1 ht2 d (List.mem_cons_self _ _))
      have hXhead : (dotJoin (t :: ts') ++ rest).head? = some d := by
        rw [head_append_of_ne_nil hjoin_ne]
        cases ts' with
        | nil => rw [show dotJoin [t] = t from rfl, hd]; rfl
        | cons u us => rw [dotJoin_cons, head_append_of_ne_nil ht1, hd]; rfl
      have hihX : grabDotted (dotJoin (t :: ts') ++ rest) =
          (dotJoin (t :: ts'), rest) :=
        ih (List.cons_ne_nil t ts')
          (fun seg hseg => hsegs seg (List.mem_cons_of_mem s hseg))
      have hgrab : grabDotted ('.' :: (dotJoin (t :: ts') ++ rest)) =
          ('.' :: dotJoin (t :: ts'), rest) :=
        grabDotted_dot_cont hXhead hdal hihX
      rw [dotJoin_cons, List.append_assoc]
      simp only [List.cons_append]
      rw [grabDotted_alphanum_front s hs2, hgrab]

theorem scanDotted_dotJoin {rest : List Char}
    (hrest : ∀ c, rest.head? = some c → alphanum.contains c = false ∧ ¬ c = '.')
    {segs : List (List Char)} (hne : segs ≠ [])
    (hsegs : ∀ seg ∈ segs, seg ≠ [] ∧ containsOnly seg alphanum = true) :
    scanDotted (dotJoin segs ++ rest) = some (dotJoin segs, rest) := by
  obtain ⟨s, ts, rfl⟩ : ∃ s ts, segs = s :: ts := by
    cases segs with
    | nil => exact absurd rfl hne
    | cons s ts => exact ⟨s, ts, rfl⟩
  obtain ⟨hs1, hs2⟩ := hsegs s (List.mem_cons_self s ts)
  obtain ⟨d, dtl, hd⟩ : ∃ d dtl, s = d :: dtl := by
    cases s with
    | nil => exact absurd rfl hs1
    | cons d dtl => exact ⟨d, dtl, rfl⟩
  have hdal : alphanum.contains d = true := by
    rw [hd] at hs2
    exact contains_iff.2 (containsOnly_iff.1 hs2 d (List.mem_cons_self _ _))
  have hjoin_ne : dotJoin (s :: ts) ≠ [] := by
    cases ts with
    | nil => exact hs1
    | cons u us =>
      rw [dotJoin_cons]
      intro hh
      exact hs1 (List.append_eq_nil.1 hh).1
  have hhead : (dotJoin (s :: ts) ++ rest).head? = some d := by
    rw [head_append_of_ne_nil hjoin_ne]
    cases ts with
    | nil => rw [show dotJoin [s] = s from rfl, hd]; rfl
    | cons u us => rw [dotJoin_cons, head_append_of_ne_nil hs1, hd]; rfl
  have hgrab := grabDotted_dotJoin hrest (s :: ts) (List.cons_ne_nil s ts) hsegs
  rcases hq : dotJoin (s :: ts) ++ rest with - | ⟨x, xtl⟩
  · rw [hq] at hhead; exact Option.noConfusion hhead
  · rw [hq] at hhead
    injection hhead with hx
    subst hx
    rw [hq] at hgrab
    show (if alphanum.contains x = true then some (grabDotted (x :: xtl))
      else none) = _
    rw [if_pos hdal, hgrab]

theorem isSpaceGo_facts {c : Char} (h : isSpaceGo c = true) :
    numbers.contains c = false ∧ alphanum.contains c = false ∧
    ¬ c = '.' ∧ ¬ c = '-' ∧ ¬ c = '+' ∧ ¬ c = 'v' := by
  have h' : (c = ' ' || c = '\t' || c = '\n' || c.val == 12 || c.val == 13)
      = true := h
  rw [Bool.or_eq_true, Bool.or_eq_true, Bool.or_eq_true, Bool.or_eq_true] at h'
  rcases h' with ((((h' | h') | h') | h') | h')
  · have hc : c = ' ' := of_decide_eq_true h'
    subst hc
    exact ⟨by decide, by decide, by decide, by decide, by decide, by decide⟩
  · have hc : c = '\t' := of_decide_eq_true h'
    subst hc
    exact ⟨by decide, by decide, by decide, by decide, by decide, by decide⟩
  · have hc : c = '\n' := of_decide_eq_true h'
    subst hc
    exact ⟨by decide, by decide, by decide, by decide, by decide, by decide⟩
  · have hv : c.val = 12 := eq_of_beq h'
    have hc : c = Char.ofNat 12 := Char.ext (by rw [hv]; decide)
    subst hc
    exact ⟨by decide, by decide, by decide, by decide, by decide, by decide⟩
  · have hv : c.val = 13 := eq_of_beq h'
    have hc : c = Char.ofNat 13 := Char.ext (by rw [hv]; decide)
    subst hc
    exact ⟨by decide, by decide, by decide, by decide, by decide, by decide⟩

theorem tolStart_v (t : List Char) : tolStart ('v' :: t) = t := rfl

theorem tolStart_space_front {ws t : List Char} (hws : ws.all isSpaceGo = true)
    {d : Char} (hd : t.head? = some d) (hdig : numbers.contains d = true) :
    tolStart (ws ++ t) = t := by
  have hds : isSpaceGo d = false := by
    cases hq : isSpaceGo d with
    | false => rfl
    | true =>
      obtain ⟨h1, -⟩ := isSpaceGo_facts hq
      rw [h1] at hdig
      exact Bool.noConfusion hdig
  have hdrest : ∀ c, t.head? = some c → isSpaceGo c = false := by
    intro c hc
    rw [hd] at hc
    injection hc with hc
    subst hc
    exact hds
  have hdv : ¬ d = 'v' := by
    intro hh
    subst hh
    exact absurd hdig (by decide)
  have hcond : ¬ ((ws ++ t).head? = some 'v') := by
    intro hh
    cases ws with
    | nil =>
      rw [List.nil_append, hd] at hh
      exact hdv (Option.some.inj hh)
    | cons w wtl =>
      have hw : isSpaceGo w = true :=
        List.all_eq_true.1 hws w (List.mem_cons_self _ _)
      have hh' : w = 'v' := by
        have h2 : some w = some 'v' := hh
        exact Option.some.inj h2
      subst hh'
      obtain ⟨-, -, -, -, -, h6⟩ := isSpaceGo_facts hw
      exact h6 rfl
  unfold tolStart
  rw [if_neg hcond, dropWhile_all_append ws hdrest hws]

theorem strictCore_none (ma mi pa : List Char) :
    strictCore ma mi pa none = ma ++ '.' :: (mi ++ '.' :: pa) := by
  show dotJoin [ma, mi, pa] = _
  rw [dotJoin_cons, dotJoin_cons]
  rfl

theorem strictCore_some (ma mi pa r : List Char) :
    strictCore ma mi pa (some r) = ma ++ '.' :: (mi ++ '.' :: (pa ++ '.' :: r)) := by
  show dotJoin [ma, mi, pa, r] = _
  rw [dotJoin_cons, dotJoin_cons, dotJoin_cons]
  rfl

theorem matchStrict_inv {s : List Char} {f : StrictFields}
    (h : matchStrict s = some f) :
    s = strictCore f.major f.minor f.patch f.revision
        ++ optMark '-' f.prerelease ++ optMark '+' f.buildmetadata ∧
    isNumField f.major = true ∧ isNumField f.minor = true ∧
    isNumField f.patch = true ∧
    (∀ r, f.revision = some r → isNumField r = true) ∧
    (∀ p, f.prerelease = some p → (splitOnDot p).all isPreSegment = true) ∧
    (∀ b, f.buildmetadata = some b → (splitOnDot b).all isBuildSegment = true)
    := by
  rcases hp1 : splitAtFirst '+' s with ⟨beforePlus, bldOpt⟩
  rcases hp2 : splitAtFirst '-' beforePlus with ⟨core, preOpt⟩
  simp only [matchStrict, hp1, hp2] at h
  split_ifs at h with hok
  rw [Bool.and_eq_true] at hok
  obtain ⟨hpreOk, hbldOk⟩ := hok
  have hbefore : beforePlus = core ++ optMark '-' preOpt := by
    cases preOpt with
    | none =>
      rw [show optMark '-' none = ([] : List Char) from rfl, List.append_nil]
      exact (splitAtFirst_none_inv hp2).1
    | some p => exact (splitAtFirst_some_inv hp2).1
  have hs : s = beforePlus ++ optMark '+' bldOpt := by
    cases bldOpt with
    | none =>
      rw [show optMark '+' none = ([] : List Char) from rfl, List.append_nil]
      exact (splitAtFirst_none_inv hp1).1
    | some b => exact (splitAtFirst_some_inv hp1).1
  split at h
  next ma mi pa heq =>
    split_ifs at h with hnum
    injection h with hf
    subst hf
    rw [Bool.and_eq_true, Bool.and_eq_true] at hnum
    obtain ⟨⟨hma, hmi⟩, hpa⟩ := hnum
    have hcore : core = dotJoin [ma, mi, pa] := by
      rw [← dotJoin_splitOnDot core, heq]
    refine ⟨?_, hma, hmi, hpa, ?_, ?_, ?_⟩
    · show s = strictCore ma mi pa none ++ optMark '-' preOpt
        ++ optMark '+' bldOpt
      rw [hs, hbefore, hcore]
      rfl
    · intro r hr
      exact Option.noConfusion hr
    · intro p hp
      have hp' : preOpt = some p := hp
      rw [hp'] at hpreOk
      exact hpreOk
    · intro b hb
      have hb' : bldOpt = some b := hb
      rw [hb'] at hbldOk
      exact hbldOk
  next ma mi pa rev heq =>
    split_ifs at h with hnum
    injection h with hf
    subst hf
    rw [Bool.and_eq_true, Bool.and_eq_true, Bool.and_eq_true] at hnum
    obtain ⟨⟨⟨hma, hmi⟩, hpa⟩, hrev⟩ := hnum
    have hcore : core = dotJoin [ma, mi, pa, rev] := by
      rw [← dotJoin_splitOnDot core, heq]
    refine ⟨?_, hma, hmi, hpa, ?_, ?_, ?_⟩
    · show s = strictCore ma mi pa (some rev) ++ optMark '-' preOpt
        ++ optMark '+' bldOpt
      rw [hs, hbefore, hcore]
      rfl
    · intro r hr
      injection hr with hr
      subst hr
      exact hrev
    · intro p hp
      have hp' : preOpt = some p := hp
      rw [hp'] at hpreOk
      exact hpreOk
    · intro b hb
      have hb' : bldOpt = some b := hb
      rw [hb'] at hbldOk
      exact hbldOk
  next h1 h2 =>
    exact Option.noConfusion h

theorem tolRev_strict {rv : Option (List Char)} {R : List Char}
    (hrv : ∀ r, rv = some r → isNumField r = true)
    (hR : ∀ c, R.head? = some c → numbers.contains c = false ∧ ¬ c = '.') :
    tolRevText (revTail rv R) = rv.getD [] ∧
    tolRevRest (revTail rv R) = R := by
  cases rv with
  | none =>
    exact ⟨tolRevText_stop (fun c hc => (hR c hc).2),
      tolRevRest_stop (fun c hc => (hR c hc).2)⟩
  | some r =>
    obtain ⟨hrne, hrd, -⟩ := isNumField_parts (hrv r rfl)
    obtain ⟨d, dtl, rfl⟩ : ∃ d dtl, r = d :: dtl := by
      cases r with
      | nil => exact absurd rfl hrne
      | cons d dtl => exact ⟨d, dtl, rfl⟩
    have hd : numbers.contains d = true :=
      contains_iff.2 (containsOnly_iff.1 hrd d (List.mem_cons_self _ _))
    constructor
    · show tolRevText ('.' :: ((d :: dtl) ++ R)) = d :: dtl
      simp only [List.cons_append]
      have hcond : ('.' = '.' && numbers.contains d) = true := by
        rw [hd]
        rfl
      have ht : tolRevText ('.' :: d :: (dtl ++ R)) =
          (d :: (dtl ++ R)).takeWhile (fun x => numbers.contains x) := by
        show (if ('.' = '.' && numbers.contains d) = true then
            (d :: (dtl ++ R)).takeWhile (fun x => numbers.contains x)
          else []) = _
        rw [if_pos hcond]
      rw [ht]
      show ((d :: dtl) ++ R).takeWhile (fun x => numbers.contains x) = d :: dtl
      exact takeWhile_all_append (d :: dtl) (fun c hc => (hR c hc).1) hrd
    · show tolRevRest ('.' :: ((d :: dtl) ++ R)) = R
      simp only [List.cons_append]
      have hcond : ('.' = '.' && numbers.contains d) = true := by
        rw [hd]
        rfl
      have ht : tolRevRest ('.' :: d :: (dtl ++ R)) =
          (d :: (dtl ++ R)).dropWhile (fun x => numbers.contains x) := by
        show (if ('.' = '.' && numbers.contains d) = true then
            (d :: (dtl ++ R)).dropWhile (fun x => numbers.contains x)
          else '.' :: d :: (dtl ++ R)) = _
        rw [if_pos hcond]
      rw [ht]
      show ((d :: dtl) ++ R).dropWhile (fun x => numbers.contains x) = R
      exact dropWhile_all_append (d :: dtl) (fun c hc => (hR c hc).1) hrd

theorem scan_strict {marker : Char} {po : Option (List Char)} {R : List Char}
    (hpo : ∀ p, po = some p →
      p ≠ [] ∧ ∀ seg ∈ splitOnDot p, seg ≠ [] ∧ containsOnly seg alphanum = true)
    (hR : ∀ c, R.head? = some c →
      alphanum.contains c = false ∧ ¬ c = '.' ∧ ¬ c = marker) :
    scanText marker (optMark marker po ++ R) = po.getD [] ∧
    scanRest marker (optMark marker po ++ R) = R := by
  cases po with
  | none =>
    show scanText marker ([] ++ R) = [] ∧ scanRest marker ([] ++ R) = R
    rw [List.nil_append]
    exact ⟨scanText_stop (fun c hc => (hR c hc).2.2),
      scanRest_stop (fun c hc => (hR c hc).2.2)⟩
  | some p =>
    obtain ⟨hpne, hsegs⟩ := hpo p rfl
    have hscan : scanDotted (p ++ R) = some (p, R) := by
      have hj := dotJoin_splitOnDot p
      rw [← hj]
      exact scanDotted_dotJoin (fun c hc => ⟨(hR c hc).1, (hR c hc).2.1⟩)
        (splitOnDot_ne_nil p) hsegs
    constructor
    · show scanText marker (marker :: (p ++ R)) = p
      simp [scanText, hscan]
    · show scanRest marker (marker :: (p ++ R)) = R
      simp [scanRest, hscan]

theorem matchStrict_headDigit {s : List Char} {f : StrictFields}
    (h : matchStrict s = some f) :
    ∃ d, s.head? = some d ∧ numbers.contains d = true := by
  obtain ⟨hshape, hMa, -⟩ := matchStrict_inv h
  obtain ⟨hmaN, hmaD, -⟩ := isNumField_parts hMa
  obtain ⟨d, dtl, hd⟩ : ∃ d dtl, f.major = d :: dtl := by
    cases hq : f.major with
    | nil => exact absurd hq hmaN
    | cons d dtl => exact ⟨d, dtl, rfl⟩
  have hdn : numbers.contains d = true := by
    rw [hd] at hmaD
    exact contains_iff.2 (containsOnly_iff.1 hmaD d (List.mem_cons_self _ _))
  refine ⟨d, ?_, hdn⟩
  rw [hshape]
  have hcore_ne : strictCore f.major f.minor f.patch f.revision ≠ [] := by
    cases hr : f.revision with
    | none =>
      rw [strictCore_none]
      intro hh
      exact hmaN (List.append_eq_nil.1 hh).1
    | some r =>
      rw [strictCore_some]
      intro hh
      exact hmaN (List.append_eq_nil.1 hh).1
  rw [head_append_of_ne_nil (fun hh => hcore_ne (List.append_eq_nil.1 hh).1),
    head_append_of_ne_nil hcore_ne]
  cases hr : f.revision with
  | none =>
    rw [strictCore_none, head_append_of_ne_nil hmaN, hd]
    rfl
  | some r =>
    rw [strictCore_some, head_append_of_ne_nil hmaN, hd]
    rfl

theorem matchTolerant_strict {s : List Char} {f : StrictFields}
    (hm : matchStrict s = some f) {ws2 : List Char}
    (hws2 : ws2.all isSpaceGo = true) {X : List Char}
    (hX : tolS1 X = s ++ ws2) :
    matchTolerant X = some ⟨f.major, f.minor, f.patch,
      f.revision.getD [], f.prerelease.getD [], f.buildmetadata.getD []⟩ := by
  obtain ⟨hshape, hMa, hMi, hPa, hRev, hPre, hBld⟩ := matchStrict_inv hm
  obtain ⟨hmaN, hmaD, -⟩ := isNumField_parts hMa
  obtain ⟨hmiN, hmiD, -⟩ := isNumField_parts hMi
  obtain ⟨hpaN, hpaD, -⟩ := isNumField_parts hPa
  have hws2head : ∀ c, ws2.head? = some c → isSpaceGo c = true := by
    intro c hc
    cases ws2 with
    | nil => exact Option.noConfusion hc
    | cons w ws =>
      have hc' : w = c := Option.some.inj hc
      subst hc'
      exact List.all_eq_true.1 hws2 w (List.mem_cons_self _ _)
  have hR4 : ∀ c, ws2.head? = some c →
      alphanum.contains c = false ∧ ¬ c = '.' ∧ ¬ c = '+' := by
    intro c hc
    obtain ⟨-, h2, h3, -, h5, -⟩ := isSpaceGo_facts (hws2head c hc)
    exact ⟨h2, h3, h5⟩
  have hR3 : ∀ c, (optMark '+' f.buildmetadata ++ ws2).head? = some c →
      alphanum.contains c = false ∧ ¬ c = '.' ∧ ¬ c = '-' := by
    intro c hc
    cases hb : f.buildmetadata with
    | none =>
      rw [hb, show optMark '+' none = ([] : List Char) from rfl,
        List.nil_append] at hc
      obtain ⟨-, h2, h3, h4, -, -⟩ := isSpaceGo_facts (hws2head c hc)
      exact ⟨h2, h3, h4⟩
    | some b =>
      rw [hb] at hc
      have hc' : '+' = c := Option.some.inj hc
      subst hc'
      exact ⟨by decide, by decide, by decide⟩
  have hR2 : ∀ c, (optMark '-' f.prerelease
      ++ (optMark '+' f.buildmetadata ++ ws2)).head? = some c →
      numbers.contains c = false ∧ ¬ c = '.' := by
    intro c hc
    cases hp : f.prerelease with
    | none =>
      rw [hp, show optMark '-' none = ([] : List Char) from rfl,
        List.nil_append] at hc
      obtain ⟨h1, h2, -⟩ := hR3 c hc
      refine ⟨?_, h2⟩
      cases hq : numbers.contains c with
      | false => rfl
      | true =>
        rw [contains_iff.2 (numbers_sub_alphanum c (contains_iff.1 hq))] at h1
        exact Bool.noConfusion h1
    | some p =>
      rw [hp] at hc
      have hc' : '-' = c := Option.some.inj hc
      subst hc'
      exact ⟨by decide, by decide⟩
  have hSW : s ++ ws2 = f.major ++ '.' :: (f.minor ++ '.' :: (f.patch
      ++ revTail f.revision (optMark '-' f.prerelease
        ++ (optMark '+' f.buildmetadata ++ ws2)))) := by
    rw [hshape]
    cases hr : f.revision with
    | none =>
      rw [strictCore_none]
      simp [revTail, List.append_assoc, List.cons_append]
    | some r =>
      rw [strictCore_some]
      simp [revTail, List.append_assoc, List.cons_append]
  have hS1 : tolS1 X = f.major ++ '.' :: (f.minor ++ '.' :: (f.patch
      ++ revTail f.revision (optMark '-' f.prerelease
        ++ (optMark '+' f.buildmetadata ++ ws2)))) := by rw [hX, hSW]
  have hdotstop : ∀ (T : List Char) (c : Char),
      ('.' :: T).head? = some c → numbers.contains c = false := by
    intro T c hc
    have hc' : '.' = c := Option.some.inj hc
    subst hc'
    decide
  have hMaT : (tolS1 X).takeWhile (fun c => numbers.contains c) = f.major := by
    rw [hS1]
    exact takeWhile_all_append f.major (hdotstop _) hmaD
  have hS2 : (tolS1 X).dropWhile (fun c => numbers.contains c) =
      '.' :: (f.minor ++ '.' :: (f.patch
        ++ revTail f.revision (optMark '-' f.prerelease
          ++ (optMark '+' f.buildmetadata ++ ws2)))) := by
    rw [hS1]
    exact dropWhile_all_append f.major (hdotstop _) hmaD
  have hS3 : tolS3 X = f.minor ++ '.' :: (f.patch
      ++ revTail f.revision (optMark '-' f.prerelease
        ++ (optMark '+' f.buildmetadata ++ ws2))) := by
    unfold tolS3
    rw [hS2, skipDot_dot]
  have hMiT : (tolS3 X).takeWhile (fun c => numbers.contains c) = f.minor := by
    rw [hS3]
    exact takeWhile_all_append f.minor (hdotstop _) hmiD
  have hS4 : (tolS3 X).dropWhile (fun c => numbers.contains c) =
      '.' :: (f.patch ++ revTail f.revision (optMark '-' f.prerelease
        ++ (optMark '+' f.buildmetadata ++ ws2))) := by
    rw [hS3]
    exact dropWhile_all_append f.minor (hdotstop _) hmiD
  have hS5 : tolS5 X = f.patch ++ revTail f.revision (optMark '-' f.prerelease
      ++ (optMark '+' f.buildmetadata ++ ws2)) := by
    unfold tolS5
    rw [hS4, skipDot_dot]
  have hrevhead : ∀ c, (revTail f.revision (optMark '-' f.prerelease
      ++ (optMark '+' f.buildmetadata ++ ws2))).head? = some c →
      numbers.contains c = false := by
    intro c hc
    cases hr : f.revision with
    | none =>
      rw [hr, show revTail none (optMark '-' f.prerelease
        ++ (optMark '+' f.buildmetadata ++ ws2)) = optMark '-' f.prerelease
        ++ (optMark '+' f.buildmetadata ++ ws2) from rfl] at hc
      exact (hR2 c hc).1
    | some r =>
      rw [hr] at hc
      have hc' : '.' = c := Option.some.inj hc
      subst hc'
      decide
  have hPaT : (tolS5 X).takeWhile (fun c => numbers.contains c) = f.patch := by
    rw [hS5]
    exact takeWhile_all_append f.patch hrevhead hpaD
  have hS6 : tolS6 X = revTail f.revision (optMark '-' f.prerelease
      ++ (optMark '+' f.buildmetadata ++ ws2)) := by
    unfold tolS6
    rw [hS5]
    exact dropWhile_all_append f.patch hrevhead hpaD
  obtain ⟨hRevT, hRevR⟩ := tolRev_strict hRev hR2
  have hS7 : tolS7 X = optMark '-' f.prerelease
      ++ (optMark '+' f.buildmetadata ++ ws2) := by
    unfold tolS7
    rw [hS6, hRevR]
  obtain ⟨hPreT, hPreR⟩ :=
    scan_strict (fun p hp => preSegs_facts (hPre p hp)) hR3
  have hS8 : tolS8 X = optMark '+' f.buildmetadata ++ ws2 := by
    unfold tolS8
    rw [hS7, hPreR]
  obtain ⟨hBldT, hBldR⟩ :=
    scan_strict (fun b hb => bldSegs_facts (hBld b hb)) hR4
  have hS9 : tolS9 X = ws2 := by
    unfold tolS9
    rw [hS8, hBldR]
  unfold matchTolerant
  rw [hS9, if_pos hws2, hMaT, hMiT, hPaT, hS6, hRevT, hS7, hPreT, hS8, hBldT]

theorem normalizeZeros_id {s : List Char} (h : hasLeadingZeroes s = false) :
    normalizeZeros s = s := by
  simp only [normalizeZeros]
  split_ifs with h1 h2
  · exfalso
    cases s with
    | nil => exact absurd h1 (by decide)
    | cons c cs =>
      have hdec : decide ((c :: cs).length > 1) = true := decide_eq_true h1
      rw [hasLeadingZeroes, hdec, Bool.true_and] at h
      have hc : ¬ c = '0' := by
        intro hh
        subst hh
        exact Bool.noConfusion h
      simp [List.dropWhile_cons, hc] at h2
  · cases s with
    | nil => rfl
    | cons c cs =>
      have hdec : decide ((c :: cs).length > 1) = true := decide_eq_true h1
      rw [hasLeadingZeroes, hdec, Bool.true_and] at h
      have hc : ¬ c = '0' := by
        intro hh
        subst hh
        exact Bool.noConfusion h
      simp [List.dropWhile_cons, hc]
  · rfl

theorem tolAssemble_strict {s : List Char} {f : StrictFields}
    (hm : matchStrict s = some f) :
    tolAssemble ⟨f.major, f.minor, f.patch, f.revision.getD [],
      f.prerelease.getD [], f.buildmetadata.getD []⟩ = Parse s := by
  obtain ⟨hshape, hMa, hMi, hPa, hRev, hPre, hBld⟩ := matchStrict_inv hm
  obtain ⟨hmaN, hmaD, hmaL⟩ := isNumField_parts hMa
  obtain ⟨hmiN, hmiD, hmiL⟩ := isNumField_parts hMi
  obtain ⟨hpaN, hpaD, hpaL⟩ := isNumField_parts hPa
  have hrevL : hasLeadingZeroes (f.revision.getD []) = false := by
    cases hr : f.revision with
    | none => rfl
    | some r => exact (isNumField_parts (hRev r hr)).2.2
  have hmaE : f.major.isEmpty = false := by
    cases hq : f.major with
    | nil => exact absurd hq hmaN
    | cons c cs => rfl
  have hmiE : f.minor.isEmpty = false := by
    cases hq : f.minor with
    | nil => exact absurd hq hmiN
    | cons c cs => rfl
  have hpaE : f.patch.isEmpty = false := by
    cases hq : f.patch with
    | nil => exact absurd hq hpaN
    | cons c cs => rfl
  simp only [tolAssemble]
  rw [normalizeZeros_id hmaL, normalizeZeros_id hmiL, normalizeZeros_id hpaL,
    normalizeZeros_id hrevL]
  have hcond : ¬ ((f.patch.isEmpty || f.minor.isEmpty || f.major.isEmpty)
      = true) := by
    rw [hpaE, hmiE, hmaE]
    decide
  rw [if_neg hcond]
  have hassemble : assemble f.major f.minor f.patch (f.revision.getD [])
      (f.prerelease.getD []) (f.buildmetadata.getD []) = s := by
    rw [hshape]
    unfold assemble
    have hrevp : (if (f.revision.getD []).isEmpty = true then ([] : List Char)
        else '.' :: f.revision.getD []) = optMark '.' f.revision := by
      cases hr : f.revision with
      | none => rfl
      | some r =>
        have hrne : r ≠ [] := (isNumField_parts (hRev r hr)).1
        have hre : ((some r).getD ([] : List Char)).isEmpty = false := by
          cases hq : r with
          | nil => exact absurd hq hrne
          | cons c cs => rfl
        rw [if_neg (by rw [hre]; decide)]
        rfl
    have hprep : (if (f.prerelease.getD []).isEmpty = true then ([] : List Char)
        else '-' :: f.prerelease.getD []) = optMark '-' f.prerelease := by
      cases hr : f.prerelease with
      | none => rfl
      | some p =>
        have hpne : p ≠ [] := (preSegs_facts (hPre p hr)).1
        have hpe : ((some p).getD ([] : List Char)).isEmpty = false := by
          cases hq : p with
          | nil => exact absurd hq hpne
          | cons c cs => rfl
        rw [if_neg (by rw [hpe]; decide)]
        rfl
    have hbldp : (if (f.buildmetadata.getD []).isEmpty = true
        then ([] : List Char)
        else '+' :: f.buildmetadata.getD []) = optMark '+' f.buildmetadata := by
      cases hr : f.buildmetadata with
      | none => rfl
      | some b =>
        have hbne : b ≠ [] := (bldSegs_facts (hBld b hr)).1
        have hbe : ((some b).getD ([] : List Char)).isEmpty = false := by
          cases hq : b with
          | nil => exact absurd hq hbne
          | cons c cs => rfl
        rw [if_neg (by rw [hbe]; decide)]
        rfl
    rw [hrevp, hprep, hbldp]
    cases hr : f.revision with
    | none =>
      rw [strictCore_none]
      simp [optMark, List.append_assoc, List.cons_append]
    | some r =>
      rw [strictCore_some]
      simp [optMark, List.append_assoc, List.cons_append]
  rw [hassemble]

/-- C3 counterexample: the leading 'v' and surrounding whitespace cannot be
combined: "1.2.3" parses strictly, " " is whitespace, yet ParseTolerant fails
on " v1.2.3" — the tolerant regex's leading group consumes either a 'v' or a
whitespace run, never whitespace followed by 'v'. -/
theorem C3_counterexample :
    Parse (chars "1.2.3") = some ⟨1, 2, 3, -1, [], []⟩ ∧
    (chars " ").all isSpaceGo = true ∧
    ParseTolerant (chars " " ++ 'v' :: chars "1.2.3") = none := by
  refine ⟨by decide, by decide, by decide⟩

/-- C3 (amended): for every string s accepted by strict Parse with Version v,
ParseTolerant succeeds with the same v on s prefixed with "v" and on s
surrounded by arbitrary whitespace; the combination of a whitespace prefix and
the "v" marker, however, is rejected. -/
theorem C3_tolerant_v_ws :
    ∀ (s : List Char) (v : Version), Parse s = some v →
      ParseTolerant ('v' :: s) = some v ∧
      (∀ ws1 ws2 : List Char, ws1.all isSpaceGo = true →
        ws2.all isSpaceGo = true →
        ParseTolerant (ws1 ++ s ++ ws2) = some v) := by
  intro s v hp
  obtain ⟨f, hm⟩ : ∃ f, matchStrict s = some f := by
    unfold Parse at hp
    split_ifs at hp with h0
    rcases hq : matchStrict s with - | f
    · rw [hq] at hp
      exact Option.noConfusion hp
    · exact ⟨f, rfl⟩
  have hend : ∀ X : List Char, matchTolerant X = some ⟨f.major, f.minor,
      f.patch, f.revision.getD [], f.prerelease.getD [],
      f.buildmetadata.getD []⟩ → ParseTolerant X = some v := by
    intro X hmt
    show (match matchTolerant X with
          | none => none
          | some g => tolAssemble g) = some v
    rw [hmt]
    show tolAssemble _ = some v
    exact (tolAssemble_strict hm).trans hp
  have hsne : s ≠ [] := by
    obtain ⟨d, hd, -⟩ := matchStrict_headDigit hm
    intro hh
    rw [hh] at hd
    exact Option.noConfusion hd
  constructor
  · apply hend
    exact matchTolerant_strict hm
      (show ([] : List Char).all isSpaceGo = true from rfl)
      (by unfold tolS1; rw [List.append_nil]; exact tolStart_v s)
  · intro ws1 ws2 h1 h2
    obtain ⟨d, hd, hdig⟩ := matchStrict_headDigit hm
    apply hend
    refine matchTolerant_strict hm h2 ?_
    show tolS1 (ws1 ++ s ++ ws2) = s ++ ws2
    unfold tolS1
    rw [List.append_assoc]
    refine tolStart_space_front h1 ?_ hdig
    rw [head_append_of_ne_nil hsne]
    exact hd

/-- C3 witness: the amended claim applied to "1.2.3": both v-prefixed and
whitespace-surrounded tolerant parses return Version 1.2.3. -/
theorem C3_tolerant_v_ws_witness :
    ParseTolerant ('v' :: chars "1.2.3") = some ⟨1, 2, 3, -1, [], []⟩ ∧
    ParseTolerant (chars " " ++ chars "1.2.3" ++ chars "  ")
      = some ⟨1, 2, 3, -1, [], []⟩ := by
  have h := C3_tolerant_v_ws (chars "1.2.3") ⟨1, 2, 3, -1, [], []⟩ (by decide)
  exact ⟨h.1, h.2 (chars " ") (chars "  ") (by decide) (by decide)⟩

end Semver
